import Mathlib

/-!
Verification of the re-kindle alignment and reinjection engine.

The Python sources are shallowly embedded over List Char:

* utils.normalize_str          -> ReKindle.normalize_str
* utils.normalize_whitespace   -> ReKindle.normalize_whitespace
* utils.min_window_subsequence -> ReKindle.min_window_subsequence
* utils.split_raw_html_on_pars -> ReKindle.split_raw_html_on_pars
* utils.create_highlighted_tags (its tag-insertion plan and the
  head/tail counts of the internal assertion) -> ReKindle.to_insert,
  ReKindle.head_count, ReKindle.tail_count
* re_kindle.find_text_spans    -> ReKindle.find_text_spans
* re_kindle.find_clip_in_spine -> ReKindle.find_clip_in_spine
* re_kindle.find_matches / process_book application loop
  -> ReKindle.find_matches, ReKindle.process_book_summary
* clip_utils.parse_txt_clippings note attachment -> ReKindle.attach_notes
* clip_utils.parse_html_clippings post-pairing logic
  -> ReKindle.parse_html_clippings_core

Python strings are modelled as List Char; the regex class \s is modelled
by pyIsSpace, the exact character set Python 3 re matches for \s on str.
-/

namespace ReKindle

/-- pyIsSpace c is true exactly for the characters Python 3 re matches
with the class \s on str inputs: 09-0D, 1C-1F, 20, 85, A0, 1680,
2000-200A, 2028, 2029, 202F, 205F, 3000.  Note that U+FEFF (BOM),
U+200B (zero-width space) and U+180E are NOT in this set. -/
def pyIsSpace (c : Char) : Bool :=
  let n := c.toNat
  (0x09 ≤ n && n ≤ 0x0D) || (0x1C ≤ n && n ≤ 0x1F) || n == 0x20 || n == 0x85 ||
  n == 0xA0 || n == 0x1680 || (0x2000 ≤ n && n ≤ 0x200A) || n == 0x2028 ||
  n == 0x2029 || n == 0x202F || n == 0x205F || n == 0x3000

/-- collapseWsAux b s replaces every maximal run of \s characters in s by a
single ASCII space; the flag b records whether the previous character was
part of a whitespace run.  This is the action of re.sub on the pattern
of one-or-more \s characters with a single space as replacement. -/
def collapseWsAux : Bool → List Char → List Char
  | _, [] => []
  | prevWs, c :: cs =>
    if pyIsSpace c then
      if prevWs then collapseWsAux true cs else ' ' :: collapseWsAux true cs
    else c :: collapseWsAux false cs

/-- pyStrip s removes leading and trailing \s characters, as str.strip(). -/
def pyStrip (s : List Char) : List Char :=
  ((s.dropWhile pyIsSpace).reverse.dropWhile pyIsSpace).reverse

/-- normalize_str models utils.normalize_str: substitute every run of \s
characters by one space, then strip. -/
def normalize_str (s : List Char) : List Char :=
  pyStrip (collapseWsAux false s)

/-- unicodeWhitespaceList is the explicit character list built inside
utils.normalize_whitespace (NBSP, ogham space mark, Mongolian vowel
separator, the U+2000..U+200A spaces, narrow no-break space, medium
mathematical space, ideographic space, and the BOM U+FEFF). -/
def unicodeWhitespaceList : List Char :=
  [' ', ' ', '᠎', ' ', ' ', ' ', ' ',
   ' ', ' ', ' ', ' ', ' ', ' ', ' ',
   ' ', ' ', '　', '﻿']

/-- normalize_whitespace models utils.normalize_whitespace: it replaces
each character of unicodeWhitespaceList by a plain ASCII space and makes
no other change (runs are not collapsed, nothing is trimmed). -/
def normalize_whitespace (s : List Char) : List Char :=
  s.map (fun c => if c ∈ unicodeWhitespaceList then ' ' else c)

/-- nospace s removes the ASCII space characters of s; this models the
idiom that joins s.split on a single space with the empty string, used
by re_kindle.find_clip_in_spine. -/
def nospace (s : List Char) : List Char :=
  s.filter (fun c => c ≠ ' ')

/-! Properties of normalize_str, used by claim C6. -/

/-- WsOk l says every \s character of l is a plain ASCII space and no two
adjacent characters of l are both \s characters.  This is the shape of
any output of collapseWsAux. -/
def WsOk (l : List Char) : Prop :=
  (∀ c ∈ l, pyIsSpace c = true → c = ' ') ∧
  l.Chain' (fun a b => ¬(pyIsSpace a = true ∧ pyIsSpace b = true))

theorem collapse_true_head (cs : List Char) :
    ∀ c ∈ (collapseWsAux true cs).head?, pyIsSpace c = false := by
  induction cs with
  | nil => simp [collapseWsAux]
  | cons c cs ih =>
    by_cases h : pyIsSpace c
    · simpa [collapseWsAux, h] using ih
    · simp [collapseWsAux, h]

theorem collapse_wsOk (b : Bool) (s : List Char) : WsOk (collapseWsAux b s) := by
  induction s generalizing b with
  | nil => exact ⟨by simp [collapseWsAux], by simp [collapseWsAux]⟩
  | cons c cs ih =>
    by_cases h : pyIsSpace c
    · cases b with
      | true => simpa [collapseWsAux, h] using ih true
      | false =>
        refine ⟨?_, ?_⟩
        · intro d hd hds
          rcases (by simpa [collapseWsAux, h] using hd :
              d = ' ' ∨ d ∈ collapseWsAux true cs) with h1 | h1
          · exact h1
          · exact (ih true).1 d h1 hds
        · rw [show collapseWsAux false (c :: cs) = ' ' :: collapseWsAux true cs by
            simp [collapseWsAux, h]]
          rw [List.chain'_cons']
          refine ⟨?_, (ih true).2⟩
          intro d hd hcon
          have := collapse_true_head cs d hd
          rw [this] at hcon
          exact absurd hcon.2 (by simp)
    · refine ⟨?_, ?_⟩
      · intro d hd hds
        rcases (by simpa [collapseWsAux, h] using hd :
            d = c ∨ d ∈ collapseWsAux false cs) with h1 | h1
        · exact absurd (h1 ▸ hds) (by simpa using h)
        · exact (ih false).1 d h1 hds
      · rw [show collapseWsAux b (c :: cs) = c :: collapseWsAux false cs by
          simp [collapseWsAux, h]]
        rw [List.chain'_cons']
        refine ⟨?_, (ih false).2⟩
        intro d _ hcon
        exact absurd hcon.1 (by simpa using h)

theorem collapse_fix (l : List Char) (hl : WsOk l) :
    collapseWsAux false l = l ∧
      ((∀ c ∈ l.head?, pyIsSpace c = false) → collapseWsAux true l = l) := by
  induction l with
  | nil => exact ⟨rfl, fun _ => rfl⟩
  | cons c cs ih =>
    obtain ⟨hall, hchain⟩ := hl
    have hcs : WsOk cs := ⟨fun d hd => hall d (List.mem_cons_of_mem _ hd), hchain.tail⟩
    by_cases h : pyIsSpace c
    · have hc : c = ' ' := hall c (List.mem_cons_self _ _) h
      have hhead : ∀ d ∈ cs.head?, pyIsSpace d = false := by
        intro d hd
        cases cs with
        | nil => simp at hd
        | cons e es =>
          simp only [List.head?_cons, Option.mem_def, Option.some.injEq] at hd
          subst hd
          have hrel := (List.chain'_cons.mp hchain).1
          by_contra hds
          exact hrel ⟨h, by simpa using hds⟩
      refine ⟨?_, ?_⟩
      · rw [show collapseWsAux false (c :: cs) = ' ' :: collapseWsAux true cs by
          simp [collapseWsAux, h]]
        rw [(ih hcs).2 hhead, hc]
      · intro hhd
        have hcc := hhd c (by simp)
        rw [h] at hcc
        exact absurd hcc (by simp)
    · have htail := (ih hcs).1
      constructor
      · simp [collapseWsAux, h, htail]
      · intro _
        simp [collapseWsAux, h, htail]

theorem pyStrip_head (l : List Char) :
    ∀ c ∈ (pyStrip l).head?, pyIsSpace c = false := by
  intro c hc
  rw [pyStrip, List.head?_reverse, Option.mem_def] at hc
  obtain ⟨t, ht⟩ := List.dropWhile_suffix (l := (l.dropWhile pyIsSpace).reverse) pyIsSpace
  have h1 : (l.dropWhile pyIsSpace).reverse.getLast? = some c := by
    rw [← ht, List.getLast?_append, hc]
    rfl
  rw [List.getLast?_reverse] at h1
  have h2 := List.head?_dropWhile_not pyIsSpace l
  rw [h1] at h2
  exact h2

theorem pyStrip_last (l : List Char) :
    ∀ c ∈ (pyStrip l).getLast?, pyIsSpace c = false := by
  intro c hc
  rw [pyStrip, List.getLast?_reverse, Option.mem_def] at hc
  have h2 := List.head?_dropWhile_not pyIsSpace ((l.dropWhile pyIsSpace).reverse)
  rw [hc] at h2
  exact h2

theorem pyStrip_fix (l : List Char)
    (h1 : ∀ c ∈ l.head?, pyIsSpace c = false)
    (h2 : ∀ c ∈ l.getLast?, pyIsSpace c = false) :
    pyStrip l = l := by
  have hdw : l.dropWhile pyIsSpace = l := by
    cases l with
    | nil => rfl
    | cons c cs =>
      have hc := h1 c (by simp)
      simp [List.dropWhile_cons, hc]
  have hdw2 : l.reverse.dropWhile pyIsSpace = l.reverse := by
    cases hr : l.reverse with
    | nil => rfl
    | cons c cs =>
      have hcm : c ∈ l.getLast? := by
        rw [← List.head?_reverse, hr]
        simp
      have hc := h2 c hcm
      simp [List.dropWhile_cons, hc]
  rw [pyStrip, hdw, hdw2, List.reverse_reverse]

theorem pyStrip_wsOk (l : List Char) (hl : WsOk l) : WsOk (pyStrip l) := by
  obtain ⟨hall, hchain⟩ := hl
  constructor
  · intro c hc hcs
    refine hall c ?_ hcs
    rw [pyStrip, List.mem_reverse] at hc
    have hc2 := List.dropWhile_subset (l := (l.dropWhile pyIsSpace).reverse) pyIsSpace hc
    rw [List.mem_reverse] at hc2
    exact List.dropWhile_subset pyIsSpace hc2
  · have s1 : (l.dropWhile pyIsSpace).Chain'
        (fun a b => ¬(pyIsSpace a = true ∧ pyIsSpace b = true)) :=
      hchain.suffix (List.dropWhile_suffix pyIsSpace)
    have s2 : ((l.dropWhile pyIsSpace).reverse).Chain'
        (fun a b => ¬(pyIsSpace a = true ∧ pyIsSpace b = true)) := by
      rw [List.chain'_reverse]
      exact s1.imp (fun a b hab => fun hcon => hab ⟨hcon.2, hcon.1⟩)
    have s3 := s2.suffix (List.dropWhile_suffix pyIsSpace)
    rw [pyStrip, List.chain'_reverse]
    exact s3.imp (fun a b hab => fun hcon => hab ⟨hcon.2, hcon.1⟩)

theorem normalize_str_idem_aux (s : List Char) :
    normalize_str (normalize_str s) = normalize_str s := by
  have hws : WsOk (pyStrip (collapseWsAux false s)) :=
    pyStrip_wsOk _ (collapse_wsOk false s)
  show pyStrip (collapseWsAux false (pyStrip (collapseWsAux false s))) =
    pyStrip (collapseWsAux false s)
  rw [(collapse_fix _ hws).1]
  exact pyStrip_fix _ (pyStrip_head _) (pyStrip_last _)

theorem normalize_whitespace_idem_aux (s : List Char) :
    normalize_whitespace (normalize_whitespace s) = normalize_whitespace s := by
  simp only [normalize_whitespace, List.map_map]
  apply List.map_congr_left
  intro c _
  by_cases h : c ∈ unicodeWhitespaceList
  · simp only [Function.comp_apply, h, if_pos]
    rw [if_neg (by decide : ¬ (' ' : Char) ∈ unicodeWhitespaceList)]
  · simp only [Function.comp_apply, h, if_neg, not_false_iff]

/-- WsEquiv x y says x and y differ only in the run-length or class of
their \s whitespace characters: they have the same non-whitespace
characters in the same order, with corresponding (non-empty) whitespace
runs in between. -/
inductive WsEquiv : List Char → List Char → Prop
  | nil : WsEquiv [] []
  | same (c : Char) {x y : List Char} (hc : pyIsSpace c = false) (h : WsEquiv x y) :
      WsEquiv (c :: x) (c :: y)
  | ws (a b : Char) (u v : List Char) {x y : List Char}
      (ha : pyIsSpace a = true) (hb : pyIsSpace b = true)
      (hu : ∀ c ∈ u, pyIsSpace c = true) (hv : ∀ c ∈ v, pyIsSpace c = true)
      (h : WsEquiv x y) : WsEquiv (a :: (u ++ x)) (b :: (v ++ y))

theorem collapse_true_run (u : List Char) (hu : ∀ c ∈ u, pyIsSpace c = true)
    (x : List Char) : collapseWsAux true (u ++ x) = collapseWsAux true x := by
  induction u with
  | nil => rfl
  | cons c cs ih =>
    have hc := hu c (by simp)
    rw [List.cons_append,
      show collapseWsAux true (c :: (cs ++ x)) = collapseWsAux true (cs ++ x) by
        simp [collapseWsAux, hc]]
    exact ih (fun d hd => hu d (by simp [hd]))

theorem wsEquiv_collapse {x y : List Char} (h : WsEquiv x y) :
    ∀ b, collapseWsAux b x = collapseWsAux b y := by
  induction h with
  | nil => intro b; rfl
  | same c hc _ ih =>
    intro b
    simp [collapseWsAux, hc, ih false]
  | ws a1 b1 u v ha hb hu hv _ ih =>
    intro bb
    cases bb <;>
      simp [collapseWsAux, ha, hb, collapse_true_run u hu,
        collapse_true_run v hv, ih true]

theorem wsEquiv_normalize {x y : List Char} (h : WsEquiv x y) :
    normalize_str x = normalize_str y := by
  rw [normalize_str, normalize_str, wsEquiv_collapse h false]

/-- C6 (amended): normalize_str is idempotent and total, and it maps any
two inputs that differ only in the run-length or class of their \s
whitespace characters (ASCII whitespace, the Unicode space separators,
non-breaking space, etc., but NOT the zero-width/BOM-class characters)
to the same output; normalize_whitespace is idempotent as well. -/
theorem normalize_idempotent_and_ws_invariant :
    (∀ s, normalize_str (normalize_str s) = normalize_str s) ∧
    (∀ s, normalize_whitespace (normalize_whitespace s) = normalize_whitespace s) ∧
    (∀ x y, WsEquiv x y → normalize_str x = normalize_str y) :=
  ⟨normalize_str_idem_aux, normalize_whitespace_idem_aux,
    fun _ _ h => wsEquiv_normalize h⟩

/-- C6 witness: the invariance applies to a concrete pair differing only
in a whitespace run (one space-plus-tab run against one NBSP). -/
theorem normalize_idempotent_and_ws_invariant_witness :
    normalize_str ['a', ' ', '\t', 'b'] = normalize_str ['a', ' ', 'b'] :=
  normalize_idempotent_and_ws_invariant.2.2 _ _
    (WsEquiv.same 'a' (by decide)
      (WsEquiv.ws ' ' ' ' ['\t'] [] (by decide) (by decide) (by decide)
        (by decide) (WsEquiv.same 'b' (by decide) WsEquiv.nil)))

/-- C6 counterexample: the claim includes zero-width/BOM-class characters
among the collapsed whitespace classes, but normalize_str leaves U+FEFF
in place, so two inputs differing only in that whitespace class map to
different outputs; moreover normalize_whitespace does not collapse runs. -/
theorem normalize_str_not_bom_invariant :
    normalize_str ['a', '﻿', 'b'] ≠ normalize_str ['a', ' ', 'b'] ∧
    normalize_whitespace ['a', ' ', ' ', 'b'] ≠ ['a', ' ', 'b'] := by
  constructor
  · decide
  · decide

/-! Python call binding, used by claims C3 and C9.  The call in
re_kindle.process_book passes the keyword argument highlight_color to
utils.create_highlighted_tags, whose only parameter is match. -/

/-- createHighlightedTagsParams is the parameter list of the definition
of utils.create_highlighted_tags. -/
def createHighlightedTagsParams : List String := ["match"]

/-- processBookCallKwargs is the keyword-argument list of the call that
re_kindle.process_book makes to utils.create_highlighted_tags. -/
def processBookCallKwargs : List String := ["highlight_color"]

/-- pyCallBindsOk params npos kwargs decides whether a Python call with
npos positional arguments and the given keyword-argument names binds
against a function whose parameters are params; an unexpected keyword
argument (or too many positionals, or a doubly-bound keyword) raises
TypeError. -/
def pyCallBindsOk (params : List String) (numPositional : Nat)
    (kwargs : List String) : Bool :=
  decide (numPositional ≤ params.length) &&
  kwargs.all (fun k => params.contains k && !((params.take numPositional).contains k))

/-- PyError distinguishes the two uncaught exception kinds the embedded
code paths can raise. -/
inductive PyError
  | typeError
  | assertionError
deriving DecidableEq

/-- applyHighlightsCalls models the per-match loop of process_book: for
each match it first evaluates utils.create_highlighted_tags with one
positional argument and the highlight_color keyword; only if that call
binds does it replace the blocks (counted) and continue. -/
def applyHighlightsCalls {α : Type} : List α → Except PyError Nat
  | [] => Except.ok 0
  | _ :: rest =>
      if pyCallBindsOk createHighlightedTagsParams 1 processBookCallKwargs then
        (applyHighlightsCalls rest).map (fun n => n + 1)
      else Except.error PyError.typeError

/-- C3 counterexample: the call in process_book is NOT compatible with
the definition of create_highlighted_tags: the keyword argument
highlight_color does not bind against the single parameter match. -/
theorem create_highlighted_tags_call_incompatible :
    pyCallBindsOk createHighlightedTagsParams 1 processBookCallKwargs = false := by
  decide

/-- C3 (amended): the call utils.create_highlighted_tags with the
highlight_color keyword is incompatible with the definition, which
accepts only the single parameter match, so applying any matched
annotation raises a TypeError before any block is replaced (the counter
of replaced matches stays at zero). -/
theorem apply_highlights_raises_type_error {α : Type} (ms : List α)
    (hne : ms ≠ []) : applyHighlightsCalls ms = Except.error PyError.typeError := by
  cases ms with
  | nil => exact absurd rfl hne
  | cons m rest =>
      rw [applyHighlightsCalls, if_neg]
      rw [create_highlighted_tags_call_incompatible]
      simp

/-- C3 witness: a singleton match list triggers the TypeError. -/
theorem apply_highlights_raises_type_error_witness :
    applyHighlightsCalls [()] = Except.error PyError.typeError :=
  apply_highlights_raises_type_error [()] (by simp)

/-! Clipping model (clip_utils.Clipping) and note attachment, claims C7,
C8 and C10. -/

/-- ClipKind is the tagged kind of a clipping: in the source the field
type holds the string highlight or note. -/
inductive ClipKind
  | highlight
  | note
deriving DecidableEq, Inhabited

/-- Clip models clip_utils.Clipping: title, type, location (a single
integer for notes, a pair for ranged highlights), date (the parsed
timestamp, modelled as Nat for ordering), content, and the mutable note
field that note-attachment sets. -/
structure Clip where
  title : List Char
  type : ClipKind
  location : List Nat
  date : Nat
  content : List Char
  note : Option (List Char) := none
deriving DecidableEq, Inhabited

/-- noteMatches note clip decides the condition of the inner loop of
parse_txt_clippings: clip.title == note.title and
clip.location[-1] == note.location[0]. -/
def noteMatches (note clip : Clip) : Bool :=
  clip.title == note.title && clip.location.getLastD 0 == note.location.headD 0

/-- attachNoteRev note clips models the inner loop
for clip in reversed(parsed_clips), which sets clip.note on the first
matching clip scanning from the most recent (last) entry and stops; the
Bool reports whether some clip matched. -/
def attachNoteRev (note : Clip) : List Clip → List Clip × Bool
  | [] => ([], false)
  | c :: rest =>
      match attachNoteRev note rest with
      | (rest2, true) => (c :: rest2, true)
      | (_, false) =>
          if noteMatches note c then
            ({ c with note := some note.content } :: rest, true)
          else (c :: rest, false)

/-- attach_notes clips notes models the outer loop of
parse_txt_clippings over parsed_notes: each note is scanned against the
highlight list, and afterwards the warning line (modelled by the pair of
the interpolated note content and location) is appended to the log
UNCONDITIONALLY, exactly as in the source. -/
def attach_notes : List Clip → List Clip → List Clip × List (List Char × List Nat)
  | clips, [] => (clips, [])
  | clips, note :: more =>
      let clips2 := (attachNoteRev note clips).1
      let res := attach_notes clips2 more
      (res.1, (note.content, note.location) :: res.2)

theorem attachNoteRev_none (note : Clip) (clips : List Clip)
    (h : ∀ c ∈ clips, noteMatches note c = false) :
    attachNoteRev note clips = (clips, false) := by
  induction clips with
  | nil => rfl
  | cons c rest ih =>
    rw [attachNoteRev, ih (fun d hd => h d (List.mem_cons_of_mem _ hd))]
    simp [h c (List.mem_cons_self _ _)]

theorem attachNoteRev_eq_set (note : Clip) (clips : List Clip) (j : Nat)
    (hj : j < clips.length)
    (hm : noteMatches note (clips.getD j default) = true)
    (hlast : ∀ k, j < k → k < clips.length →
      noteMatches note (clips.getD k default) = false) :
    attachNoteRev note clips =
      (clips.set j { clips.getD j default with note := some note.content }, true) := by
  induction clips generalizing j with
  | nil => simp at hj
  | cons c rest ih =>
    cases j with
    | zero =>
      have hrest : ∀ d ∈ rest, noteMatches note d = false := by
        intro d hd
        obtain ⟨k, hk, rfl⟩ := List.mem_iff_getElem.mp hd
        have := hlast (k + 1) (Nat.succ_pos k) (by simpa using Nat.succ_lt_succ hk)
        rwa [List.getD_cons_succ, List.getD_eq_getElem rest default hk] at this
      rw [attachNoteRev, attachNoteRev_none note rest hrest]
      simp only [List.getD_cons_zero] at hm
      simp [hm]
    | succ j' =>
      have hj' : j' < rest.length := Nat.lt_of_succ_lt_succ hj
      have hm' : noteMatches note (rest.getD j' default) = true := by
        rwa [List.getD_cons_succ] at hm
      have hlast' : ∀ k, j' < k → k < rest.length →
          noteMatches note (rest.getD k default) = false := by
        intro k hk hklen
        have := hlast (k + 1) (Nat.succ_lt_succ hk) (by simpa using Nat.succ_lt_succ hklen)
        rwa [List.getD_cons_succ] at this
      rw [attachNoteRev, ih j' hj' hm' hlast']
      simp [List.getD_cons_succ]

/-- C7: each note is attached to the most recent matching highlight.  For
a timestamp-ascending highlight list, the reversed scan of
parse_txt_clippings updates exactly the last matching index j; every
later index fails the match, and every matching index has a date not
exceeding the date at j (most recent qualifying highlight wins). -/
theorem attach_note_most_recent (note : Clip) (clips : List Clip)
    (hsorted : clips.Pairwise (fun a b => a.date ≤ b.date))
    (hex : ∃ i, i < clips.length ∧ noteMatches note (clips.getD i default) = true) :
    ∃ j, j < clips.length ∧ noteMatches note (clips.getD j default) = true ∧
      (∀ k, j < k → k < clips.length →
        noteMatches note (clips.getD k default) = false) ∧
      attachNoteRev note clips =
        (clips.set j { clips.getD j default with note := some note.content }, true) ∧
      (∀ k, k < clips.length → noteMatches note (clips.getD k default) = true →
        (clips.getD k default).date ≤ (clips.getD j default).date) := by
  classical
  obtain ⟨i, hi, him⟩ := hex
  have hPd : DecidablePred (fun k =>
      k < clips.length ∧ noteMatches note (clips.getD k default) = true) :=
    fun _ => instDecidableAnd
  set j := Nat.findGreatest (fun k =>
      k < clips.length ∧ noteMatches note (clips.getD k default) = true)
      clips.length with hjdef
  have hPj : j < clips.length ∧ noteMatches note (clips.getD j default) = true :=
    Nat.findGreatest_spec
      (P := fun k => k < clips.length ∧ noteMatches note (clips.getD k default) = true)
      (le_of_lt hi) ⟨hi, him⟩
  have hgt : ∀ k, j < k → k < clips.length →
      noteMatches note (clips.getD k default) = false := by
    intro k hk hklen
    by_contra hkm
    exact absurd ⟨hklen, by simpa using hkm⟩
      (Nat.findGreatest_is_greatest
        (P := fun k => k < clips.length ∧ noteMatches note (clips.getD k default) = true)
        hk (le_of_lt hklen))
  refine ⟨j, hPj.1, hPj.2, hgt, attachNoteRev_eq_set note clips j hPj.1 hPj.2 hgt, ?_⟩
  intro k hk hkm
  rcases lt_trichotomy k j with h | h | h
  · have hp := List.pairwise_iff_getElem.mp hsorted k j hk hPj.1 h
    rwa [List.getD_eq_getElem clips default hk, List.getD_eq_getElem clips default hPj.1]
  · subst h; exact le_refl _
  · rw [hgt k h hk] at hkm
    simp at hkm

/-- exNoteC7, with the two highlights of exClipsC7, realizes the concrete
scenario of claim C7: locations [1,5] at dates 1 and 2, note at location
5 with date 3. -/
def exNoteC7 : Clip :=
  { title := ['t'], type := ClipKind.note, location := [5], date := 3,
    content := ['n'] }

/-- exClipsC7 is the timestamp-ascending highlight list for the C7
scenario. -/
def exClipsC7 : List Clip :=
  [{ title := ['t'], type := ClipKind.highlight, location := [1, 5], date := 1,
     content := ['a'] },
   { title := ['t'], type := ClipKind.highlight, location := [1, 5], date := 2,
     content := ['b'] }]

/-- C7 witness: on the concrete scenario the attachment updates index 1,
the highlight with timestamp 2, not the one with timestamp 1. -/
theorem attach_note_most_recent_witness :
    (∃ j, j < exClipsC7.length ∧
      noteMatches exNoteC7 (exClipsC7.getD j default) = true ∧
      (∀ k, j < k → k < exClipsC7.length →
        noteMatches exNoteC7 (exClipsC7.getD k default) = false) ∧
      attachNoteRev exNoteC7 exClipsC7 =
        (exClipsC7.set j
          { exClipsC7.getD j default with note := some exNoteC7.content }, true) ∧
      (∀ k, k < exClipsC7.length →
        noteMatches exNoteC7 (exClipsC7.getD k default) = true →
        (exClipsC7.getD k default).date ≤ (exClipsC7.getD j default).date)) ∧
    attachNoteRev exNoteC7 exClipsC7 =
      (exClipsC7.set 1
        { exClipsC7.getD 1 default with note := some exNoteC7.content }, true) :=
  ⟨attach_note_most_recent exNoteC7 exClipsC7 (by decide) ⟨0, by decide, by decide⟩,
    by decide⟩

/-- C8: the warning line is appended for EVERY note, matched or not.  On
a concrete input where the note does attach (same title, highlight
location end 5 equals note location 5), the log still records the note
as unmatched: the code appends the could-not-be-matched line
unconditionally after the scan, with no for-else or flag. -/
theorem attach_notes_logs_matched_note :
    (attach_notes exClipsC7 [exNoteC7]).1 =
      exClipsC7.set 1 { exClipsC7.getD 1 default with note := some exNoteC7.content } ∧
    (attach_notes exClipsC7 [exNoteC7]).2 =
      [(exNoteC7.content, exNoteC7.location)] := by
  constructor
  · decide
  · decide

/-! parse_html_clippings post-pairing logic, claim C10. -/

/-- locationsOrdered clips decides the assertion loop of
parse_html_clippings: every consecutive pair must have non-decreasing
location[0]. -/
def locationsOrdered : List Clip → Bool
  | a :: b :: rest =>
      decide (a.location.headD 0 ≤ b.location.headD 0) && locationsOrdered (b :: rest)
  | _ => true

/-- noteIndices clips models note_indices: the ascending list of indices
whose clip has type note. -/
def noteIndices (clips : List Clip) : List Nat :=
  (List.range clips.length).filter
    (fun ix => (clips.getD ix default).type == ClipKind.note)

/-- attachHtmlNotes models the attachment loop of parse_html_clippings:
for each note index ix (ascending) it sets the note field of the
immediately preceding clipping, at index ix - 1, to the note content. -/
def attachHtmlNotes : List Clip → List Nat → List Clip
  | cur, [] => cur
  | cur, ix :: rest =>
      attachHtmlNotes
        (cur.set (ix - 1)
          { cur.getD (ix - 1) default with
              note := some ((cur.getD ix default).content) })
        rest

/-- parse_html_clippings_core models clip_utils.parse_html_clippings
after the soup pairing has produced all_clips: the location-ordering
assertion, the first-clipping-is-a-note assertion, note attachment to
the immediately preceding clipping, and the final restriction to
highlights (the source skips both the attachment and the filter when
there is no note). -/
def parse_html_clippings_core (clips : List Clip) : Except PyError (List Clip) :=
  if locationsOrdered clips then
    match noteIndices clips with
    | [] => Except.ok clips
    | i0 :: _ =>
        if i0 = 0 then Except.error PyError.assertionError
        else Except.ok ((attachHtmlNotes clips (noteIndices clips)).filter
            (fun c => c.type == ClipKind.highlight))
  else Except.error PyError.assertionError

/-- parse_html_spec restates the intended output in the words of the
spec: every note attaches its content unconditionally to the immediately
preceding clipping in document order, and only highlights are
returned. -/
def parse_html_spec (clips : List Clip) : List Clip :=
  ((List.range clips.length).map (fun m =>
    let c := clips.getD m default
    if m + 1 < clips.length &&
        ((clips.getD (m + 1) default).type == ClipKind.note) then
      { c with note := some ((clips.getD (m + 1) default).content) }
    else c)).filter (fun c => c.type == ClipKind.highlight)

theorem locationsOrdered_eq_false (clips : List Clip) :
    locationsOrdered clips = false ↔
      ∃ i, i + 1 < clips.length ∧
        (clips.getD (i + 1) default).location.headD 0 <
          (clips.getD i default).location.headD 0 := by
  induction clips with
  | nil => simp [locationsOrdered]
  | cons a rest ih =>
    cases rest with
    | nil => simp [locationsOrdered]
    | cons b rest2 =>
      rw [locationsOrdered]
      rw [Bool.and_eq_false_iff]
      constructor
      · rintro (h | h)
        · refine ⟨0, by simp, ?_⟩
          simp only [List.getD_cons_succ, List.getD_cons_zero]
          simpa using h
        · obtain ⟨i, hi, hlt⟩ := ih.mp h
          exact ⟨i + 1, by simpa using Nat.succ_lt_succ hi, by simpa using hlt⟩
      · rintro ⟨i, hi, hlt⟩
        cases i with
        | zero =>
          left
          simp only [List.getD_cons_succ, List.getD_cons_zero] at hlt
          simpa using Nat.not_le.mpr hlt
        | succ i' =>
          right
          exact ih.mpr ⟨i', Nat.lt_of_succ_lt_succ hi, by simpa using hlt⟩

theorem getD_set_self (l : List Clip) (i : Nat) (a : Clip) (h : i < l.length) :
    (l.set i a).getD i default = a := by
  rw [List.getD_eq_getElem?_getD, List.getElem?_set_self h]
  rfl

theorem getD_set_ne (l : List Clip) (i j : Nat) (a : Clip) (h : i ≠ j) :
    (l.set i a).getD j default = l.getD j default := by
  rw [List.getD_eq_getElem?_getD, List.getElem?_set_ne h, ← List.getD_eq_getElem?_getD]

theorem attachHtmlNotes_length (idxs : List Nat) (cur : List Clip) :
    (attachHtmlNotes cur idxs).length = cur.length := by
  induction idxs generalizing cur with
  | nil => rfl
  | cons ix rest ih => rw [attachHtmlNotes, ih, List.length_set]

theorem attachHtmlNotes_getD (idxs : List Nat) (cur : List Clip)
    (hasc : idxs.Pairwise (fun a b => a < b))
    (hb : ∀ ix ∈ idxs, 1 ≤ ix ∧ ix < cur.length) (m : Nat) :
    (attachHtmlNotes cur idxs).getD m default =
      if m + 1 ∈ idxs then
        { cur.getD m default with
            note := some ((cur.getD (m + 1) default).content) }
      else cur.getD m default := by
  induction idxs generalizing cur with
  | nil => simp [attachHtmlNotes]
  | cons ix rest ih =>
    obtain ⟨hrel, hasc2⟩ := List.pairwise_cons.mp hasc
    obtain ⟨hix1, hixlen⟩ := hb ix (List.mem_cons_self _ _)
    rw [attachHtmlNotes]
    rw [ih (cur.set (ix - 1)
        { cur.getD (ix - 1) default with
            note := some ((cur.getD ix default).content) }) hasc2 (by
      intro k hk
      obtain ⟨h1, h2⟩ := hb k (List.mem_cons_of_mem _ hk)
      exact ⟨h1, by simpa using h2⟩)]
    by_cases hmem : m + 1 ∈ rest
    · have hgt := hrel _ hmem
      rw [if_pos hmem, if_pos (List.mem_cons_of_mem _ hmem)]
      rw [getD_set_ne _ _ _ _ (by omega), getD_set_ne _ _ _ _ (by omega)]
    · by_cases heq : m + 1 = ix
      · subst heq
        rw [if_neg hmem, if_pos (List.mem_cons_self _ _)]
        rw [show m + 1 - 1 = m by omega, getD_set_self _ _ _ (by omega)]
      · have hnotin : m + 1 ∉ (ix :: rest) := by
          simp only [List.mem_cons]
          rintro (h | h)
          · exact heq h
          · exact hmem h
        rw [if_neg hmem, if_neg hnotin, getD_set_ne _ _ _ _ (by omega)]

theorem mem_noteIndices (clips : List Clip) (k : Nat) :
    k ∈ noteIndices clips ↔
      k < clips.length ∧ (clips.getD k default).type = ClipKind.note := by
  simp [noteIndices, List.mem_filter, List.mem_range]

theorem noteIndices_sorted (clips : List Clip) :
    (noteIndices clips).Pairwise (fun a b => a < b) :=
  (List.pairwise_lt_range _).sublist (List.filter_sublist _)

theorem map_getD_range (l : List Clip) :
    (List.range l.length).map (fun m => l.getD m default) = l := by
  apply List.ext_getElem
  · simp
  · intro i h1 h2
    simp [List.getElem?_eq_getElem h2]

/-- describeHtml clips m is the clip at index m after spec-level note
attachment: if the next clipping is a note, its content is attached. -/
def describeHtml (clips : List Clip) (m : Nat) : Clip :=
  let c := clips.getD m default
  if m + 1 < clips.length &&
      ((clips.getD (m + 1) default).type == ClipKind.note) then
    { c with note := some ((clips.getD (m + 1) default).content) }
  else c

theorem parse_html_spec_eq (clips : List Clip) :
    parse_html_spec clips =
      ((List.range clips.length).map (describeHtml clips)).filter
        (fun c => c.type == ClipKind.highlight) := rfl

theorem attachHtmlNotes_eq_map (clips : List Clip)
    (h0 : 0 ∉ noteIndices clips) :
    attachHtmlNotes clips (noteIndices clips) =
      (List.range clips.length).map (describeHtml clips) := by
  apply List.ext_getElem
  · rw [attachHtmlNotes_length]
    simp
  · intro i h1 h2
    have hlen : i < clips.length := by
      rw [attachHtmlNotes_length] at h1
      exact h1
    have hb : ∀ ix ∈ noteIndices clips, 1 ≤ ix ∧ ix < clips.length := by
      intro ix hix
      refine ⟨?_, ((mem_noteIndices clips ix).mp hix).1⟩
      rcases Nat.eq_zero_or_pos ix with h | h
      · exact absurd (h ▸ hix) h0
      · exact h
    have := attachHtmlNotes_getD (noteIndices clips) clips
      (noteIndices_sorted clips) hb i
    rw [List.getD_eq_getElem _ default h1] at this
    rw [this, List.getElem_map, List.getElem_range, describeHtml]
    by_cases hmem : i + 1 ∈ noteIndices clips
    · obtain ⟨hl, ht⟩ := (mem_noteIndices clips (i + 1)).mp hmem
      rw [if_pos hmem, if_pos (show
        (decide (i + 1 < clips.length) &&
          ((clips.getD (i + 1) default).type == ClipKind.note)) = true by
        rw [Bool.and_eq_true, decide_eq_true_eq, beq_iff_eq]
        exact ⟨hl, ht⟩)]
    · rw [if_neg hmem, if_neg ?_]
      intro hcon
      simp only [Bool.and_eq_true, decide_eq_true_eq, beq_iff_eq] at hcon
      exact hmem ((mem_noteIndices clips (i + 1)).mpr hcon)

theorem clipKind_not_note (k : ClipKind) (h : k ≠ ClipKind.note) :
    k = ClipKind.highlight := by
  cases k
  · rfl
  · exact absurd rfl h

/-- C10: within a structured-markup export, a consecutive pair with a
decreasing starting location is rejected with a fatal assertion error; a
sequence whose first clipping is a Note is rejected with a fatal
assertion error; otherwise every note attaches its content
unconditionally to the immediately preceding clipping in document order
and only highlights are returned. -/
theorem parse_html_clippings_core_spec (clips : List Clip) :
    ((∃ i, i + 1 < clips.length ∧
        (clips.getD (i + 1) default).location.headD 0 <
          (clips.getD i default).location.headD 0) →
      parse_html_clippings_core clips = Except.error PyError.assertionError) ∧
    (clips ≠ [] → (clips.getD 0 default).type = ClipKind.note →
      parse_html_clippings_core clips = Except.error PyError.assertionError) ∧
    ((∀ i, i + 1 < clips.length →
        (clips.getD i default).location.headD 0 ≤
          (clips.getD (i + 1) default).location.headD 0) →
      (clips = [] ∨ (clips.getD 0 default).type ≠ ClipKind.note) →
      parse_html_clippings_core clips = Except.ok (parse_html_spec clips)) := by
  refine ⟨?_, ?_, ?_⟩
  · intro hex
    have hfalse : locationsOrdered clips = false :=
      (locationsOrdered_eq_false clips).mpr hex
    rw [parse_html_clippings_core, hfalse]
    simp
  · intro hne hnote
    have hlen : 0 < clips.length := List.length_pos.mpr hne
    have h0 : 0 ∈ noteIndices clips := (mem_noteIndices clips 0).mpr ⟨hlen, hnote⟩
    rw [parse_html_clippings_core]
    by_cases ho : locationsOrdered clips
    · rw [if_pos ho]
      cases hNI : noteIndices clips with
      | nil => rw [hNI] at h0; simp at h0
      | cons i0 t =>
        rw [hNI] at h0
        have hi0 : i0 = 0 := by
          rcases List.mem_cons.mp h0 with h | h
          · exact h.symm
          · have := (List.pairwise_cons.mp ((hNI ▸ noteIndices_sorted clips))).1 0 h
            omega
        rw [hi0]
        simp
    · rw [if_neg ho]
  · intro hord hnote
    have ho : locationsOrdered clips = true := by
      cases h : locationsOrdered clips with
      | false =>
        obtain ⟨i, hi, hlt⟩ := (locationsOrdered_eq_false clips).mp h
        exact absurd (hord i hi) (Nat.not_le.mpr hlt)
      | true => rfl
    have h0 : 0 ∉ noteIndices clips := by
      intro hmem
      obtain ⟨hlen, ht⟩ := (mem_noteIndices clips 0).mp hmem
      rcases hnote with h | h
      · rw [h] at hlen; simp at hlen
      · exact h ht
    rw [parse_html_clippings_core, if_pos ho]
    cases hNI : noteIndices clips with
    | nil =>
      have hnonote : ∀ k, k < clips.length →
          (clips.getD k default).type ≠ ClipKind.note := by
        intro k hk hkt
        have : k ∈ noteIndices clips := (mem_noteIndices clips k).mpr ⟨hk, hkt⟩
        rw [hNI] at this
        simp at this
      have hdesc : ∀ m ∈ List.range clips.length,
          describeHtml clips m = clips.getD m default := by
        intro m _
        rw [describeHtml, if_neg]
        intro hcon
        simp only [Bool.and_eq_true, decide_eq_true_eq, beq_iff_eq] at hcon
        exact hnonote (m + 1) hcon.1 hcon.2
      have hmap : (List.range clips.length).map (describeHtml clips) = clips := by
        rw [List.map_congr_left hdesc, map_getD_range]
      have hfilter : clips.filter (fun c => c.type == ClipKind.highlight) = clips := by
        apply List.filter_eq_self.mpr
        intro c hc
        obtain ⟨k, hk, rfl⟩ := List.mem_iff_getElem.mp hc
        have := hnonote k hk
        rw [List.getD_eq_getElem _ default hk] at this
        simp [clipKind_not_note _ this]
      rw [parse_html_spec_eq, hmap, hfilter]
    | cons i0 t =>
      have hi0 : i0 ≠ 0 := by
        intro h
        apply h0
        rw [hNI, h]
        exact List.mem_cons_self _ _
      show (if i0 = 0 then Except.error PyError.assertionError
        else Except.ok ((attachHtmlNotes clips (i0 :: t)).filter
          (fun c => c.type == ClipKind.highlight))) =
        Except.ok (parse_html_spec clips)
      rw [if_neg hi0, parse_html_spec_eq, ← hNI, attachHtmlNotes_eq_map clips h0]

/-- exClipsC10 realizes the attach-and-filter scenario for the C10
witness: a highlight followed by a note. -/
def exClipsC10 : List Clip :=
  [{ title := ['t'], type := ClipKind.highlight, location := [1, 5], date := 1,
     content := ['a'] },
   { title := ['t'], type := ClipKind.note, location := [5], date := 2,
     content := ['n'] }]

/-- C10 witness: the three conjuncts applied at concrete inputs: a
decreasing pair errors, a leading note errors, and the highlight-note
pair returns the highlight with the note content attached. -/
theorem parse_html_clippings_core_spec_witness :
    parse_html_clippings_core
      [{ title := ['t'], type := ClipKind.highlight, location := [9], date := 1,
         content := ['a'] },
       { title := ['t'], type := ClipKind.highlight, location := [3], date := 2,
         content := ['b'] }] = Except.error PyError.assertionError ∧
    parse_html_clippings_core
      [{ title := ['t'], type := ClipKind.note, location := [5], date := 1,
         content := ['n'] },
       { title := ['t'], type := ClipKind.highlight, location := [5], date := 2,
         content := ['a'] }] = Except.error PyError.assertionError ∧
    parse_html_clippings_core exClipsC10 = Except.ok (parse_html_spec exClipsC10) ∧
    parse_html_spec exClipsC10 =
      [{ title := ['t'], type := ClipKind.highlight, location := [1, 5], date := 1,
         content := ['a'], note := some ['n'] }] :=
  ⟨(parse_html_clippings_core_spec _).1 ⟨0, by decide, by decide⟩,
    (parse_html_clippings_core_spec _).2.1 (by decide) (by decide),
    (parse_html_clippings_core_spec _).2.2
      (by
        intro i hi
        have hlen : i + 1 < 2 := by simpa [exClipsC10] using hi
        have hz : i = 0 := by omega
        subst hz
        decide)
      (Or.inr (by decide)),
    by decide⟩

/-! Tag injection: utils.split_raw_html_on_pars and the insertion plan of
utils.create_highlighted_tags, claim C2. -/

/-- closeTok is the closing structural boundary token, the exact string
the regex alternative captures for a closing paragraph tag. -/
def closeTok : List Char := ['<', '/', 'p', '>']

/-- findGt splits its input at the first '>' character, returning the
characters before it and the rest after it; none when no '>' occurs.
This is the action of the regex piece that matches any run of non-'>'
characters followed by '>'. -/
def findGt : List Char → Option (List Char × List Char)
  | [] => none
  | c :: cs =>
      if c = '>' then some ([], cs)
      else (findGt cs).map (fun p => (c :: p.1, p.2))

/-- tokenizeAux models the regex scan of split_raw_html_on_pars: at each
position it first tries the closing-tag alternative, then the
opening-tag alternative (a '<' and 'p' followed by non-'>' characters
and a '>'), else the character joins the current text chunk (acc, kept
reversed).  The fuel argument only bounds the recursion; one unit per
consumed character, so length + 1 fuel always suffices. -/
def tokenizeAux : Nat → List Char → List Char → List (List Char)
  | _, acc, [] => [acc.reverse]
  | 0, acc, s => [acc.reverse ++ s]
  | fuel + 1, acc, '<' :: '/' :: 'p' :: '>' :: rest =>
      acc.reverse :: closeTok :: tokenizeAux fuel [] rest
  | fuel + 1, acc, '<' :: 'p' :: rest =>
      (match findGt rest with
        | some (mid, rest2) =>
            acc.reverse :: ('<' :: 'p' :: (mid ++ ['>'])) :: tokenizeAux fuel [] rest2
        | none => tokenizeAux fuel ('p' :: '<' :: acc) rest)
  | fuel + 1, acc, c :: cs => tokenizeAux fuel (c :: acc) cs

/-- tokenize s is the full list re.split produces with captured
delimiters: text chunks (possibly empty) interleaved with boundary
tokens. -/
def tokenize (s : List Char) : List (List Char) :=
  tokenizeAux (s.length + 1) [] s

/-- split_raw_html_on_pars models utils.split_raw_html_on_pars: the
regex split keeping delimiters, then dropping every part whose strip()
is empty (that is, keeping the parts containing some non-\s character). -/
def split_raw_html_on_pars (html : List Char) : List (List Char) :=
  (tokenize html).filter (fun p => p.any (fun c => !(pyIsSpace c)))

/-- startsWithOpenP p decides p.startswith of the two-character opening
marker '<' 'p'. -/
def startsWithOpenP (p : List Char) : Bool :=
  ['<', 'p'].isPrefixOf p

/-- startsWithClose4 p decides p.startswith of the four-character
closing tag. -/
def startsWithClose4 (p : List Char) : Bool :=
  closeTok.isPrefixOf p

/-- startsWithClose3 p decides p.startswith of the three-character
'<' '/' 'p' (the final-part test of create_highlighted_tags uses this
shorter string). -/
def startsWithClose3 (p : List Char) : Bool :=
  ['<', '/', 'p'].isPrefixOf p

/-- endsWithClose p decides p.endswith of the closing tag. -/
def endsWithClose (p : List Char) : Bool :=
  p.reverse.take 4 == ['>', 'p', '/', '<']

/-- toInsertFrom prev i parts is the loop body of
create_highlighted_tags for indices from i upward (the i greater than
zero arm): a closing boundary inserts a TAIL marker (false) at i, an
opening boundary immediately after a part ending in the closing tag
inserts a HEAD marker (true) at i + 1. -/
def toInsertFrom (prev : List Char) (i : Nat) : List (List Char) → List (Nat × Bool)
  | [] => []
  | p :: rest =>
      (if startsWithClose4 p then [(i, false)]
       else if startsWithOpenP p && endsWithClose prev then [(i + 1, true)]
       else []) ++ toInsertFrom p (i + 1) rest

/-- to_insert models the to_insert list of create_highlighted_tags:
the index-zero arm (a HEAD marker unless the first part is a boundary),
the loop over the remaining parts, and the trailing TAIL marker when the
last part is not a boundary.  (On an empty part list the source raises
an IndexError; the model returns the empty plan.) -/
def to_insert : List (List Char) → List (Nat × Bool)
  | [] => []
  | p0 :: rest =>
      ((if startsWithOpenP p0 || startsWithClose4 p0 then [] else [(0, true)]) ++
        toInsertFrom p0 1 rest) ++
      (if startsWithClose3 ((p0 :: rest).getLastD []) ||
          startsWithOpenP ((p0 :: rest).getLastD []) then []
       else [((p0 :: rest).length, false)])

/-- head_count parts is the number of HEAD markers of the insertion
plan, the head_count of the assertion in create_highlighted_tags. -/
def head_count (parts : List (List Char)) : Nat :=
  ((to_insert parts).filter (fun x => x.2 == true)).length

/-- tail_count parts is the number of TAIL markers of the insertion
plan, the tail_count of the assertion in create_highlighted_tags. -/
def tail_count (parts : List (List Char)) : Nat :=
  ((to_insert parts).filter (fun x => x.2 == false)).length

/-- ContentChunk p says the part p is not a structural boundary: it does
not start with the opening marker nor with the three-character closing
marker. -/
def ContentChunk (p : List Char) : Prop :=
  startsWithOpenP p = false ∧ startsWithClose3 p = false

/-- BoundaryBlock b says b is the token run a window acquires for each
additional structural block it spans: the closing tag, an opening tag,
and the next block's content chunk. -/
def BoundaryBlock (b : List (List Char)) : Prop :=
  ∃ op c, b = [closeTok, op, c] ∧ startsWithOpenP op = true ∧ ContentChunk c

theorem close3_of_close4 (p : List Char) (h : startsWithClose4 p = true) :
    startsWithClose3 p = true := by
  rw [startsWithClose4, List.isPrefixOf_iff_prefix] at h
  rw [startsWithClose3, List.isPrefixOf_iff_prefix]
  exact List.IsPrefix.trans (by decide) h

theorem close4_eq_false_of_close3 (p : List Char) (h : startsWithClose3 p = false) :
    startsWithClose4 p = false := by
  cases hc : startsWithClose4 p with
  | false => rfl
  | true => rw [close3_of_close4 p hc] at h; cases h

theorem close4_eq_false_of_openP (p : List Char) (h : startsWithOpenP p = true) :
    startsWithClose4 p = false := by
  rw [startsWithOpenP, List.isPrefixOf_iff_prefix] at h
  cases hc : startsWithClose4 p with
  | false => rfl
  | true =>
    rw [startsWithClose4, List.isPrefixOf_iff_prefix] at hc
    have hpre := List.prefix_of_prefix_length_le h hc (by decide)
    have : ¬ (['<', 'p'] <+: closeTok) := by decide
    exact absurd hpre this

theorem countTrue_append (l1 l2 : List (Nat × Bool)) :
    ((l1 ++ l2).filter (fun x => x.2 == true)).length =
      (l1.filter (fun x => x.2 == true)).length +
      (l2.filter (fun x => x.2 == true)).length := by
  rw [List.filter_append, List.length_append]

theorem countFalse_append (l1 l2 : List (Nat × Bool)) :
    ((l1 ++ l2).filter (fun x => x.2 == false)).length =
      (l1.filter (fun x => x.2 == false)).length +
      (l2.filter (fun x => x.2 == false)).length := by
  rw [List.filter_append, List.length_append]

theorem toInsertFrom_blocks (bs : List (List (List Char)))
    (hbs : ∀ b ∈ bs, BoundaryBlock b) :
    ∀ prev i,
      ((toInsertFrom prev i bs.flatten).filter (fun x => x.2 == true)).length =
        bs.length ∧
      ((toInsertFrom prev i bs.flatten).filter (fun x => x.2 == false)).length =
        bs.length := by
  induction bs with
  | nil => intro prev i; simp [toInsertFrom]
  | cons b rest ih =>
    intro prev i
    obtain ⟨op, c, hb, hop, hc⟩ := hbs b (List.mem_cons_self _ _)
    subst hb
    have hrest := ih (fun b hb => hbs b (List.mem_cons_of_mem _ hb))
    have hflat : (([closeTok, op, c] : List (List Char)) :: rest).flatten =
        closeTok :: op :: c :: rest.flatten := rfl
    rw [hflat]
    have step : toInsertFrom prev i (closeTok :: op :: c :: rest.flatten) =
        [(i, false)] ++ ([(i + 1 + 1, true)] ++
          ([] ++ toInsertFrom c (i + 1 + 1 + 1) rest.flatten)) := by
      rw [toInsertFrom, if_pos (by decide)]
      rw [toInsertFrom, if_neg (by rw [close4_eq_false_of_openP op hop]; simp),
        if_pos (by rw [hop]; decide)]
      rw [toInsertFrom, if_neg (by rw [close4_eq_false_of_close3 c hc.2]; simp),
        if_neg (by rw [hc.1]; simp)]
    constructor
    · rw [step, countTrue_append, countTrue_append, countTrue_append,
        (hrest c (i + 1 + 1 + 1)).1]
      simp
      omega
    · rw [step, countFalse_append, countFalse_append, countFalse_append,
        (hrest c (i + 1 + 1 + 1)).2]
      simp
      omega

theorem getLastD_blocks (bs : List (List (List Char)))
    (hbs : ∀ b ∈ bs, BoundaryBlock b) :
    ∀ cc, ContentChunk cc → ContentChunk (bs.flatten.getLastD cc) := by
  induction bs with
  | nil => intro cc hcc; exact hcc
  | cons b rest ih =>
    intro cc hcc
    obtain ⟨op, c, hb, _, hc⟩ := hbs b (List.mem_cons_self _ _)
    subst hb
    rw [show (([closeTok, op, c] : List (List Char)) :: rest).flatten =
      closeTok :: op :: c :: rest.flatten from rfl]
    rw [List.getLastD_cons, List.getLastD_cons, List.getLastD_cons]
    exact ih (fun b hb => hbs b (List.mem_cons_of_mem _ hb)) c hc

/-- C2: the insertion plan of create_highlighted_tags has equal HEAD and
TAIL marker counts (head_count equals tail_count, the internal
assertion) for every highlighted window whose split decomposes as a
content chunk followed by any number (0 up to N - 1) of structural
boundary blocks — a window spanning 1 up to N structural blocks. -/
theorem create_highlighted_tags_balanced (w : List Char) (c0 : List Char)
    (bs : List (List (List Char)))
    (hsplit : split_raw_html_on_pars w = c0 :: bs.flatten)
    (h0 : ContentChunk c0) (hbs : ∀ b ∈ bs, BoundaryBlock b) :
    head_count (split_raw_html_on_pars w) = tail_count (split_raw_html_on_pars w) := by
  rw [hsplit, head_count, tail_count, to_insert]
  have hlast : ContentChunk ((c0 :: bs.flatten).getLastD []) := by
    rw [List.getLastD_cons]
    exact getLastD_blocks bs hbs c0 h0
  have hfirst : (startsWithOpenP c0 || startsWithClose4 c0) = false := by
    rw [h0.1, close4_eq_false_of_close3 c0 h0.2]
    rfl
  rw [if_neg (by rw [hfirst]; simp), if_neg (by rw [hlast.1, hlast.2]; simp)]
  rw [countTrue_append, countTrue_append, countFalse_append, countFalse_append]
  rw [(toInsertFrom_blocks bs hbs c0 1).1, (toInsertFrom_blocks bs hbs c0 1).2]
  simp
  omega

/-- C2 witness: the two-block window with content a, a boundary, and
content b has one HEAD and one TAIL from the loop plus the leading HEAD
and trailing TAIL: two of each. -/
theorem create_highlighted_tags_balanced_witness :
    head_count (split_raw_html_on_pars
      ['a', '<', '/', 'p', '>', '<', 'p', '>', 'b']) =
    tail_count (split_raw_html_on_pars
      ['a', '<', '/', 'p', '>', '<', 'p', '>', 'b']) :=
  create_highlighted_tags_balanced _ ['a'] [[closeTok, ['<', 'p', '>'], ['b']]]
    (by decide) ⟨by decide, by decide⟩
    (by
      intro b hb
      rw [List.mem_singleton] at hb
      subst hb
      exact ⟨['<', 'p', '>'], ['b'], rfl, by decide, by decide, by decide⟩)

/-! Span location: re_kindle.find_text_spans, claim C5. -/

/-- Block models one structural element of a document: text is
el.get_text(), raw is str(el). -/
structure Block where
  text : List Char
  raw : List Char
deriving DecidableEq, Inhabited

/-- strFind hay needle models str.find: the least index at which needle
starts as a contiguous substring of hay, none when absent. -/
def strFind (hay needle : List Char) : Option Nat :=
  if needle.isPrefixOf hay then some 0
  else
    match hay with
    | [] => none
    | _ :: t => (strFind t needle).map (fun k => k + 1)

/-- buildCombinedAux models the span-building loop of find_text_spans:
a separating space is appended only when the accumulated string is
non-empty, and each block records its half-open character range. -/
def buildCombinedAux : List Char → List (List Char) → List Char × List (Nat × Nat)
  | comb, [] => (comb, [])
  | comb, t :: ts =>
      let comb2 := if comb = [] then comb else comb ++ [' ']
      let st := comb2.length
      let comb3 := comb2 ++ t
      let res := buildCombinedAux comb3 ts
      (res.1, (st, comb3.length) :: res.2)

/-- combinedOf texts is the concatenated search string of
find_text_spans. -/
def combinedOf (texts : List (List Char)) : List Char :=
  (buildCombinedAux [] texts).1

/-- spansOf texts is the list of half-open block ranges recorded by
find_text_spans. -/
def spansOf (texts : List (List Char)) : List (Nat × Nat) :=
  (buildCombinedAux [] texts).2

/-- matchedLoop models the final loop of find_text_spans: skip blocks
ending at or before the match, stop at the first block starting at or
after the match end, collect the rest. -/
def matchedLoop : List (Nat × Nat) → Nat → Nat → Nat → List Nat
  | [], _, _, _ => []
  | (st, en) :: rest, i, sp, ep =>
      if en ≤ sp then matchedLoop rest (i + 1) sp ep
      else if st ≥ ep then []
      else i :: matchedLoop rest (i + 1) sp ep

/-- find_text_spans models re_kindle.find_text_spans over the Block
model: normalize the query and every block text, search the combined
string, and return the overlapping block indices (none when absent). -/
def find_text_spans (elements : List Block) (query : List Char) : Option (List Nat) :=
  let norm_query := normalize_str query
  let full_texts := elements.map (fun el => normalize_str el.text)
  match strFind (combinedOf full_texts) norm_query with
  | none => none
  | some start_pos =>
      some (matchedLoop (spansOf full_texts) 0 start_pos
        (start_pos + norm_query.length))

/-- normTexts elements is the list of normalized block texts. -/
def normTexts (elements : List Block) : List (List Char) :=
  elements.map (fun el => normalize_str el.text)

/-- intercalateSpace ts is the spec-side concatenation of the texts with
a single separating space between consecutive blocks. -/
def intercalateSpace : List (List Char) → List Char
  | [] => []
  | [t] => t
  | t :: ts => t ++ ' ' :: intercalateSpace ts

/-- sepJoin ts prepends one separating space to every text and
concatenates; combinedOf equals the first non-empty text followed by the
sepJoin of the remaining texts. -/
def sepJoin (ts : List (List Char)) : List Char :=
  (ts.map (fun t => ' ' :: t)).flatten

/-- spansFromNE base ts lists the ranges the builder records once the
accumulated string has length base and is non-empty: each block starts
one past the previous end. -/
def spansFromNE : Nat → List (List Char) → List (Nat × Nat)
  | _, [] => []
  | base, t :: ts => (base + 1, base + 1 + t.length) :: spansFromNE (base + 1 + t.length) ts

/-- pySlice s a b models the python slice s[a:b] for 0 ≤ a ≤ b. -/
def pySlice (s : List Char) (a b : Nat) : List Char :=
  (s.drop a).take (b - a)

/-- spanOverlaps sp a b decides that the half-open range sp intersects
the half-open interval from a to b. -/
def spanOverlaps (sp : Nat × Nat) (a b : Nat) : Bool :=
  decide (a < sp.2) && decide (sp.1 < b)

theorem strFind_none_of_not_infix (hay needle : List Char) (h : ¬ needle <:+: hay) :
    strFind hay needle = none := by
  induction hay with
  | nil =>
    rw [strFind, if_neg]
    intro hp
    rw [List.isPrefixOf_iff_prefix] at hp
    exact h hp.isInfix
  | cons c t ih =>
    rw [strFind, if_neg, ih, Option.map_none']
    · intro hinf
      exact h (List.infix_cons hinf)
    · intro hp
      rw [List.isPrefixOf_iff_prefix] at hp
      exact h hp.isInfix

theorem strFind_some_spec (hay needle : List Char) :
    ∀ p, strFind hay needle = some p →
      needle <+: hay.drop p ∧ p + needle.length ≤ hay.length := by
  induction hay with
  | nil =>
    intro p hp
    rw [strFind] at hp
    by_cases h : needle.isPrefixOf [] = true
    · rw [if_pos h] at hp
      rw [Option.some.injEq] at hp
      subst hp
      rw [List.isPrefixOf_iff_prefix] at h
      exact ⟨h, by simpa using h.length_le⟩
    · rw [if_neg h] at hp
      simp at hp
  | cons c t ih =>
    intro p hp
    rw [strFind] at hp
    by_cases h : needle.isPrefixOf (c :: t) = true
    · rw [if_pos h] at hp
      rw [Option.some.injEq] at hp
      subst hp
      rw [List.isPrefixOf_iff_prefix] at h
      exact ⟨by simpa using h, by simpa using h.length_le⟩
    · rw [if_neg h] at hp
      cases hf : strFind t needle with
      | none => rw [hf] at hp; simp at hp
      | some k =>
        rw [hf] at hp
        rw [Option.map_some', Option.some.injEq] at hp
        subst hp
        obtain ⟨h1, h2⟩ := ih k hf
        refine ⟨by simpa using h1, ?_⟩
        simp only [List.length_cons]
        omega

theorem strFind_isSome_of_infix (hay needle : List Char) (h : needle <:+: hay) :
    ∃ p, strFind hay needle = some p := by
  induction hay with
  | nil =>
    have hn : needle = [] := by
      have := h.sublist.length_le
      simpa using List.eq_nil_of_length_eq_zero (by simpa using this)
    subst hn
    exact ⟨0, by rw [strFind, if_pos (by decide)]⟩
  | cons c t ih =>
    by_cases hp : needle.isPrefixOf (c :: t) = true
    · exact ⟨0, by rw [strFind, if_pos hp]⟩
    · have hinf : needle <:+: t := by
        rcases List.infix_cons_iff.mp h with h1 | h1
        · exact absurd (List.isPrefixOf_iff_prefix.mpr h1) hp
        · exact h1
      obtain ⟨k, hk⟩ := ih hinf
      exact ⟨k + 1, by rw [strFind, if_neg hp, hk]; rfl⟩

theorem buildCombinedAux_ne (ts : List (List Char)) :
    ∀ comb, comb ≠ [] →
      buildCombinedAux comb ts = (comb ++ sepJoin ts, spansFromNE comb.length ts) := by
  induction ts with
  | nil =>
    intro comb _
    simp [buildCombinedAux, sepJoin, spansFromNE]
  | cons t ts ih =>
    intro comb h
    rw [buildCombinedAux]
    simp only [if_neg h]
    rw [ih (comb ++ [' '] ++ t) (by simp)]
    have hsep : sepJoin (t :: ts) = (' ' :: t) ++ sepJoin ts := by
      simp [sepJoin]
    have hlen : (comb ++ [' '] ++ t).length = comb.length + 1 + t.length := by
      simp [List.length_append]
      omega
    rw [hsep, hlen]
    have hlen2 : (comb ++ [' ']).length = comb.length + 1 := by
      simp
    rw [hlen2, spansFromNE]
    simp [List.append_assoc]

theorem buildCombinedAux_allEmpty (ts : List (List Char)) (h : ∀ x ∈ ts, x = []) :
    buildCombinedAux [] ts = ([], ts.map (fun _ => ((0 : Nat), (0 : Nat)))) := by
  induction ts with
  | nil => rfl
  | cons t ts ih =>
    have ht : t = [] := h t (List.mem_cons_self _ _)
    subst ht
    rw [buildCombinedAux]
    simp [ih (fun x hx => h x (List.mem_cons_of_mem _ hx))]

theorem buildCombinedAux_structured (E : List (List Char)) (hE : ∀ x ∈ E, x = [])
    (t : List Char) (ht : t ≠ []) (rest : List (List Char)) :
    buildCombinedAux [] (E ++ t :: rest) =
      (t ++ sepJoin rest,
        E.map (fun _ => ((0 : Nat), (0 : Nat))) ++
          (0, t.length) :: spansFromNE t.length rest) := by
  induction E with
  | nil =>
    rw [List.nil_append, buildCombinedAux]
    simp [buildCombinedAux_ne rest t ht]
  | cons e E ih =>
    have he : e = [] := hE e (List.mem_cons_self _ _)
    subst he
    rw [List.cons_append, buildCombinedAux]
    simp [ih (fun x hx => hE x (List.mem_cons_of_mem _ hx))]

theorem texts_decompose (ts : List (List Char)) :
    (∀ x ∈ ts, x = []) ∨
      ∃ E t rest, ts = E ++ t :: rest ∧ (∀ x ∈ E, x = []) ∧ t ≠ [] := by
  induction ts with
  | nil => exact Or.inl (by simp)
  | cons u us ih =>
    by_cases hu : u = []
    · subst hu
      rcases ih with h | ⟨E, t, rest, hts, hE, ht⟩
      · exact Or.inl (by
          intro x hx
          rcases List.mem_cons.mp hx with h1 | h1
          · exact h1
          · exact h x h1)
      · refine Or.inr ⟨[] :: E, t, rest, by rw [hts]; rfl, ?_, ht⟩
        intro x hx
        rcases List.mem_cons.mp hx with h1 | h1
        · exact h1
        · exact hE x h1
    · exact Or.inr ⟨[], u, us, rfl, by simp, hu⟩

theorem intercalateSpace_eq_sepJoin (t : List Char) (rest : List (List Char)) :
    intercalateSpace (t :: rest) = t ++ sepJoin rest := by
  induction rest generalizing t with
  | nil => simp [intercalateSpace, sepJoin]
  | cons r rs ih =>
    rw [show intercalateSpace (t :: r :: rs) = t ++ ' ' :: intercalateSpace (r :: rs)
      from rfl, ih r]
    simp [sepJoin]

theorem intercalateSpace_structured (E : List (List Char)) (hE : ∀ x ∈ E, x = [])
    (t : List Char) (rest : List (List Char)) :
    intercalateSpace (E ++ t :: rest) =
      List.replicate E.length ' ' ++ (t ++ sepJoin rest) := by
  induction E with
  | nil => simpa using intercalateSpace_eq_sepJoin t rest
  | cons e E ih =>
    have he : e = [] := hE e (List.mem_cons_self _ _)
    subst he
    obtain ⟨y, ys, hys⟩ : ∃ y ys, E ++ t :: rest = y :: ys := by
      cases E with
      | nil => exact ⟨t, rest, rfl⟩
      | cons a as => exact ⟨a, as ++ t :: rest, rfl⟩
    rw [List.cons_append, hys,
      show intercalateSpace ([] :: y :: ys) = [] ++ ' ' :: intercalateSpace (y :: ys)
        from rfl, ← hys, ih (fun x hx => hE x (List.mem_cons_of_mem _ hx))]
    simp [List.replicate_succ]

theorem intercalateSpace_allEmpty (ts : List (List Char)) (h : ∀ x ∈ ts, x = []) :
    ∀ c ∈ intercalateSpace ts, c = ' ' := by
  induction ts with
  | nil => simp [intercalateSpace]
  | cons t us ih =>
    have ht : t = [] := h t (List.mem_cons_self _ _)
    subst ht
    cases us with
    | nil => simp [intercalateSpace]
    | cons v vs =>
      intro c hc
      rw [show intercalateSpace ([] :: v :: vs) = [] ++ ' ' :: intercalateSpace (v :: vs)
        from rfl] at hc
      rcases List.mem_cons.mp (by simpa using hc) with h1 | h1
      · exact h1
      · exact ih (fun x hx => h x (List.mem_cons_of_mem _ hx)) c h1

theorem buildCombinedAux_spans_length (ts : List (List Char)) :
    ∀ comb, (buildCombinedAux comb ts).2.length = ts.length := by
  induction ts with
  | nil => intro comb; rfl
  | cons t ts ih =>
    intro comb
    rw [buildCombinedAux]
    simp [ih]

theorem spansOf_length (ts : List (List Char)) : (spansOf ts).length = ts.length :=
  buildCombinedAux_spans_length ts []

theorem spansFromNE_facts (rest : List (List Char)) :
    ∀ base, (∀ sp ∈ spansFromNE base rest, base < sp.1 ∧ sp.1 ≤ sp.2) ∧
      (spansFromNE base rest).Pairwise (fun a b => a.2 ≤ b.1) := by
  induction rest with
  | nil => intro base; exact ⟨by simp [spansFromNE], by simp [spansFromNE]⟩
  | cons r rs ih =>
    intro base
    rw [spansFromNE]
    constructor
    · intro sp hsp
      rcases List.mem_cons.mp hsp with h | h
      · subst h
        constructor
        · omega
        · simp
      · have := (ih (base + 1 + r.length)).1 sp h
        exact ⟨by omega, this.2⟩
    · rw [List.pairwise_cons]
      refine ⟨?_, (ih (base + 1 + r.length)).2⟩
      intro sp hsp
      have := (ih (base + 1 + r.length)).1 sp hsp
      simp only
      omega

/-- mainSpans t rest is the span list the builder records for a first
non-empty text t followed by rest. -/
def mainSpans (t : List Char) (rest : List (List Char)) : List (Nat × Nat) :=
  (0, t.length) :: spansFromNE t.length rest

theorem mainSpans_facts (t : List Char) (rest : List (List Char)) :
    (∀ sp ∈ mainSpans t rest, sp.1 ≤ sp.2) ∧
    (mainSpans t rest).Pairwise (fun a b => a.2 ≤ b.1) := by
  obtain ⟨hb, hp⟩ := spansFromNE_facts rest t.length
  constructor
  · intro sp hsp
    rcases List.mem_cons.mp hsp with h | h
    · subst h; simp
    · exact (hb sp h).2
  · rw [mainSpans, List.pairwise_cons]
    refine ⟨?_, hp⟩
    intro sp hsp
    have := hb sp hsp
    simp only
    omega

theorem map_const_pairwise {α : Type} (E : List α)
    (R : (Nat × Nat) → (Nat × Nat) → Prop) (h : R (0, 0) (0, 0)) :
    (E.map (fun _ => ((0 : Nat), (0 : Nat)))).Pairwise R := by
  induction E with
  | nil => simp
  | cons e E ih =>
    rw [List.map_cons, List.pairwise_cons]
    refine ⟨?_, ih⟩
    intro b hb
    rcases List.mem_map.mp hb with ⟨x, _, rfl⟩
    exact h

theorem structuredSpans_mono (E : List (List Char)) (t : List Char)
    (rest : List (List Char)) :
    (E.map (fun _ => ((0 : Nat), (0 : Nat))) ++ mainSpans t rest).Pairwise
      (fun a b => a.1 ≤ b.1) ∧
    (E.map (fun _ => ((0 : Nat), (0 : Nat))) ++ mainSpans t rest).Pairwise
      (fun a b => a.2 ≤ b.2) := by
  obtain ⟨h1, h2⟩ := mainSpans_facts t rest
  have hmain1 : (mainSpans t rest).Pairwise (fun a b => a.1 ≤ b.1) := by
    refine h2.imp_of_mem ?_
    intro a b ha _ hab
    have := h1 a ha
    omega
  have hmain2 : (mainSpans t rest).Pairwise (fun a b => a.2 ≤ b.2) := by
    refine h2.imp_of_mem ?_
    intro a b _ hb hab
    have := h1 b hb
    omega
  constructor
  · rw [List.pairwise_append]
    refine ⟨map_const_pairwise E _ (le_refl 0), hmain1, ?_⟩
    intro a ha b _
    rcases List.mem_map.mp ha with ⟨x, _, rfl⟩
    exact Nat.zero_le _
  · rw [List.pairwise_append]
    refine ⟨map_const_pairwise E _ (le_refl 0), hmain2, ?_⟩
    intro a ha b _
    rcases List.mem_map.mp ha with ⟨x, _, rfl⟩
    exact Nat.zero_le _

theorem matchedLoop_mem (spans : List (Nat × Nat)) :
    ∀ i sp ep, spans.Pairwise (fun a b => a.1 ≤ b.1) →
      ∀ j, j ∈ matchedLoop spans i sp ep ↔
        ∃ k, k < spans.length ∧ j = i + k ∧
          spanOverlaps (spans.getD k (0, 0)) sp ep = true := by
  induction spans with
  | nil => simp [matchedLoop]
  | cons hd rest ih =>
    intro i sp ep hmono j
    obtain ⟨st, en⟩ := hd
    obtain ⟨hhd, htl⟩ := List.pairwise_cons.mp hmono
    rw [matchedLoop]
    by_cases h1 : en ≤ sp
    · rw [if_pos h1, ih (i + 1) sp ep htl j]
      constructor
      · rintro ⟨k, hk, rfl, hov⟩
        exact ⟨k + 1, by simpa using Nat.succ_lt_succ hk, by omega,
          by rwa [List.getD_cons_succ]⟩
      · rintro ⟨k, hk, hj, hov⟩
        cases k with
        | zero =>
          rw [List.getD_cons_zero] at hov
          rw [spanOverlaps, Bool.and_eq_true, decide_eq_true_eq, decide_eq_true_eq] at hov
          omega
        | succ k2 =>
          rw [List.getD_cons_succ] at hov
          exact ⟨k2, by simpa using Nat.lt_of_succ_lt_succ hk, by omega, hov⟩
    · rw [if_neg h1]
      by_cases h2 : st ≥ ep
      · rw [if_pos h2]
        simp only [List.not_mem_nil, false_iff]
        rintro ⟨k, hk, hj, hov⟩
        rw [spanOverlaps, Bool.and_eq_true, decide_eq_true_eq, decide_eq_true_eq] at hov
        cases k with
        | zero =>
          rw [List.getD_cons_zero] at hov
          omega
        | succ k2 =>
          rw [List.getD_cons_succ] at hov
          have hk2 : k2 < rest.length := by simpa using Nat.lt_of_succ_lt_succ hk
          have hmem : rest.getD k2 (0, 0) ∈ rest := by
            rw [List.getD_eq_getElem rest (0, 0) hk2]
            exact List.getElem_mem hk2
          have := hhd _ hmem
          omega
      · rw [if_neg h2]
        rw [List.mem_cons, ih (i + 1) sp ep htl j]
        constructor
        · rintro (rfl | ⟨k, hk, rfl, hov⟩)
          · refine ⟨0, by simp, by omega, ?_⟩
            rw [List.getD_cons_zero, spanOverlaps, Bool.and_eq_true]
            exact ⟨decide_eq_true (by omega), decide_eq_true (by omega)⟩
          · exact ⟨k + 1, by simpa using Nat.succ_lt_succ hk, by omega,
              by rwa [List.getD_cons_succ]⟩
        · rintro ⟨k, hk, hj, hov⟩
          cases k with
          | zero => exact Or.inl (by omega)
          | succ k2 =>
            rw [List.getD_cons_succ] at hov
            exact Or.inr ⟨k2, by simpa using Nat.lt_of_succ_lt_succ hk, by omega, hov⟩

theorem matchedLoop_first (spans : List (Nat × Nat)) (i sp ep : Nat)
    (h : ∀ s ∈ spans, sp < s.2) :
    matchedLoop spans i sp ep = [] ∨
      ∃ tl, matchedLoop spans i sp ep = i :: tl := by
  cases spans with
  | nil => exact Or.inl rfl
  | cons hd rest =>
    obtain ⟨st, en⟩ := hd
    rw [matchedLoop]
    rw [if_neg (by have := h (st, en) (List.mem_cons_self _ _); simp only at this; omega)]
    by_cases h2 : st ≥ ep
    · rw [if_pos h2]
      exact Or.inl rfl
    · rw [if_neg h2]
      exact Or.inr ⟨_, rfl⟩

theorem matchedLoop_chain (spans : List (Nat × Nat)) :
    ∀ i sp ep, spans.Pairwise (fun a b => a.2 ≤ b.2) →
      (matchedLoop spans i sp ep).Chain' (fun a b => b = a + 1) := by
  induction spans with
  | nil => intro i sp ep _; simp [matchedLoop]
  | cons hd rest ih =>
    intro i sp ep hmono
    obtain ⟨st, en⟩ := hd
    obtain ⟨hhd, htl⟩ := List.pairwise_cons.mp hmono
    rw [matchedLoop]
    by_cases h1 : en ≤ sp
    · rw [if_pos h1]
      exact ih (i + 1) sp ep htl
    · rw [if_neg h1]
      by_cases h2 : st ≥ ep
      · rw [if_pos h2]
        exact List.chain'_nil
      · rw [if_neg h2]
        rw [List.chain'_cons']
        refine ⟨?_, ih (i + 1) sp ep htl⟩
        intro y hy
        have hall : ∀ s ∈ rest, sp < s.2 := by
          intro s hs
          have := hhd s hs
          omega
        rcases matchedLoop_first rest (i + 1) sp ep hall with h | ⟨tl, htl2⟩
        · rw [h] at hy
          simp at hy
        · rw [htl2] at hy
          simp only [List.head?_cons, Option.mem_def, Option.some.injEq] at hy
          omega

theorem chain_succ_range' (l : List Nat) (h : l.Chain' (fun a b => b = a + 1)) :
    ∃ a n, l = List.range' a n := by
  induction l with
  | nil => exact ⟨0, 0, rfl⟩
  | cons c tl ih =>
    obtain ⟨a, n, htl⟩ := ih (List.chain'_cons'.mp h).2
    cases tl with
    | nil => exact ⟨c, 1, rfl⟩
    | cons d ds =>
      have hd : d = c + 1 := (List.chain'_cons.mp h).1
      have hn : n ≠ 0 := by
        intro h0
        rw [h0] at htl
        simp at htl
      obtain ⟨m, rfl⟩ : ∃ m, n = m + 1 := ⟨n - 1, by omega⟩
      rw [List.range'_succ] at htl
      have hac : d = a := by
        have := congrArg List.head? htl
        simpa using this
      refine ⟨c, m + 2, ?_⟩
      rw [List.range'_succ]
      congr 1
      rw [htl, show a = c + 1 by omega, List.range'_succ]

theorem getD_append_right' {α : Type} (l1 l2 : List α) (d : α) (n : Nat)
    (h : l1.length ≤ n) :
    (l1 ++ l2).getD n d = l2.getD (n - l1.length) d := by
  rw [List.getD_eq_getElem?_getD, List.getElem?_append_right h,
    ← List.getD_eq_getElem?_getD]

theorem getD_append_left' {α : Type} (l1 l2 : List α) (d : α) (n : Nat)
    (h : n < l1.length) :
    (l1 ++ l2).getD n d = l1.getD n d := by
  rw [List.getD_eq_getElem?_getD, List.getElem?_append_left h,
    ← List.getD_eq_getElem?_getD]

theorem sepJoin_cons (r : List Char) (rs : List (List Char)) :
    sepJoin (r :: rs) = ' ' :: (r ++ sepJoin rs) := by
  simp [sepJoin]

theorem sepJoin_pos (rest : List (List Char)) :
    ∀ base pos, pos < (sepJoin rest).length →
      (sepJoin rest).getD pos ' ' ≠ ' ' →
      ∃ sp ∈ spansFromNE base rest, sp.1 ≤ base + pos ∧ base + pos < sp.2 := by
  induction rest with
  | nil => simp [sepJoin]
  | cons r rs ih =>
    intro base pos hlen hch
    rw [sepJoin_cons] at hlen hch
    cases pos with
    | zero => exact absurd (List.getD_cons_zero) hch
    | succ p =>
      rw [List.getD_cons_succ] at hch
      rw [List.length_cons, List.length_append] at hlen
      by_cases hp : p < r.length
      · refine ⟨(base + 1, base + 1 + r.length), List.mem_cons_self _ _, ?_, ?_⟩
        · simp only
          omega
        · simp only
          omega
      · have hch2 : (sepJoin rs).getD (p - r.length) ' ' ≠ ' ' := by
          rwa [getD_append_right' r (sepJoin rs) ' ' p (by omega)] at hch
        have hlen2 : p - r.length < (sepJoin rs).length := by omega
        obtain ⟨sp, hsp, h1, h2⟩ := ih (base + 1 + r.length) (p - r.length) hlen2 hch2
        refine ⟨sp, ?_, by omega, by omega⟩
        rw [spansFromNE]
        exact List.mem_cons_of_mem _ hsp

theorem combined_pos (t : List Char) (rest : List (List Char)) (pos : Nat)
    (hlen : pos < (t ++ sepJoin rest).length)
    (hch : (t ++ sepJoin rest).getD pos ' ' ≠ ' ') :
    ∃ k, k < (mainSpans t rest).length ∧
      ((mainSpans t rest).getD k (0, 0)).1 ≤ pos ∧
      pos < ((mainSpans t rest).getD k (0, 0)).2 := by
  by_cases hp : pos < t.length
  · refine ⟨0, by simp [mainSpans], ?_, ?_⟩
    · rw [mainSpans, List.getD_cons_zero]
      exact Nat.zero_le pos
    · rw [mainSpans, List.getD_cons_zero]
      exact hp
  · have hch2 : (sepJoin rest).getD (pos - t.length) ' ' ≠ ' ' := by
      rwa [getD_append_right' t (sepJoin rest) ' ' pos (by omega)] at hch
    have hlen2 : pos - t.length < (sepJoin rest).length := by
      rw [List.length_append] at hlen
      omega
    obtain ⟨sp, hsp, h1, h2⟩ := sepJoin_pos rest t.length (pos - t.length) hlen2 hch2
    rw [show t.length + (pos - t.length) = pos by omega] at h1 h2
    obtain ⟨k, hk, hke⟩ := List.mem_iff_getElem.mp hsp
    refine ⟨k + 1, ?_, ?_, ?_⟩
    · rw [mainSpans, List.length_cons]
      exact Nat.succ_lt_succ hk
    · rw [mainSpans, List.getD_cons_succ, List.getD_eq_getElem _ _ hk, hke]
      exact h1
    · rw [mainSpans, List.getD_cons_succ, List.getD_eq_getElem _ _ hk, hke]
      exact h2

theorem spansFromNE_shift (rs : List (List Char)) :
    ∀ base d, spansFromNE (base + d) rs =
      (spansFromNE base rs).map (fun p => (p.1 + d, p.2 + d)) := by
  induction rs with
  | nil => intro base d; rfl
  | cons r rs2 ih =>
    intro base d
    rw [spansFromNE, spansFromNE, List.map_cons]
    congr 1
    · rw [Prod.mk.injEq]
      exact ⟨by omega, by omega⟩
    · rw [show base + d + 1 + r.length = (base + 1 + r.length) + d by omega, ih]

theorem mainSpans_step (t r : List Char) (rs : List (List Char)) :
    spansFromNE t.length (r :: rs) =
      (mainSpans r rs).map (fun p => (p.1 + (t.length + 1), p.2 + (t.length + 1))) := by
  rw [mainSpans, List.map_cons, spansFromNE]
  congr 1
  · rw [Prod.mk.injEq]
    exact ⟨by omega, by omega⟩
  · rw [show t.length + 1 + r.length = r.length + (t.length + 1) by omega,
      spansFromNE_shift]

theorem spansFromNE_length (rest : List (List Char)) :
    ∀ base, (spansFromNE base rest).length = rest.length := by
  induction rest with
  | nil => intro base; rfl
  | cons r rs ih =>
    intro base
    rw [spansFromNE, List.length_cons, ih, List.length_cons]

theorem mainSpans_length (t : List Char) (rest : List (List Char)) :
    (mainSpans t rest).length = rest.length + 1 := by
  rw [mainSpans, List.length_cons, spansFromNE_length]

theorem mainSpans_getD_succ (t r : List Char) (rs : List (List Char)) (k : Nat)
    (hk : k < (mainSpans r rs).length) :
    (mainSpans t (r :: rs)).getD (k + 1) (0, 0) =
      (((mainSpans r rs).getD k (0, 0)).1 + (t.length + 1),
       ((mainSpans r rs).getD k (0, 0)).2 + (t.length + 1)) := by
  rw [mainSpans, List.getD_cons_succ, mainSpans_step t r rs]
  rw [List.getD_eq_getElem _ _ (by rwa [List.length_map])]
  rw [List.getElem_map, List.getD_eq_getElem _ _ hk]

theorem extraction_zero (n : Nat) :
    ∀ t rest, 0 < n → n ≤ (t :: rest : List (List Char)).length →
      ∃ suf, t ++ sepJoin rest = intercalateSpace ((t :: rest).take n) ++ suf ∧
        (intercalateSpace ((t :: rest).take n)).length =
          ((mainSpans t rest).getD (n - 1) (0, 0)).2 := by
  induction n with
  | zero =>
    intro t rest h0 _
    exact absurd h0 (lt_irrefl 0)
  | succ m ih =>
    intro t rest _ hn
    cases m with
    | zero =>
      refine ⟨sepJoin rest, ?_, ?_⟩
      · rfl
      · rw [show ((t :: rest : List (List Char)).take 1) = [t] from rfl]
        simp [mainSpans, intercalateSpace]
    | succ m2 =>
      cases rest with
      | nil =>
        rw [List.length_cons, List.length_nil] at hn
        omega
      | cons r rs =>
        have hlen3 : m2 + 2 ≤ rs.length + 1 + 1 := by simpa using hn
        have hn2 : m2 + 1 ≤ (r :: rs : List (List Char)).length := by
          rw [List.length_cons]
          omega
        obtain ⟨suf, heq, hlen⟩ := ih r rs (Nat.succ_pos _) hn2
        have hidx0 : m2 < (mainSpans r rs).length := by
          rw [mainSpans_length]
          omega
        have hR := mainSpans_getD_succ t r rs m2 hidx0
        have htake : ((t :: r :: rs : List (List Char)).take (m2 + 2)) =
            t :: ((r :: rs : List (List Char)).take (m2 + 1)) := rfl
        have htake2 : ((r :: rs : List (List Char)).take (m2 + 1)) =
            r :: (rs.take m2) := rfl
        have hint : intercalateSpace (t :: r :: rs.take m2) =
            t ++ ' ' :: intercalateSpace (r :: rs.take m2) := rfl
        rw [show m2 + 1 - 1 = m2 from rfl] at hlen
        refine ⟨suf, ?_, ?_⟩
        · rw [htake, htake2, hint, sepJoin_cons, ← htake2, heq]
          simp [List.append_assoc]
        · rw [htake, htake2, hint, List.length_append, List.length_cons, ← htake2,
            hlen, show m2 + 2 - 1 = m2 + 1 from rfl, hR]
          simp only
          omega

theorem extraction_gen (f : Nat) :
    ∀ t rest n, 0 < n → f + n ≤ (t :: rest : List (List Char)).length →
      ∃ pre suf, t ++ sepJoin rest =
          pre ++ (intercalateSpace (((t :: rest : List (List Char)).drop f).take n) ++ suf) ∧
        pre.length = ((mainSpans t rest).getD f (0, 0)).1 ∧
        pre.length + (intercalateSpace (((t :: rest : List (List Char)).drop f).take n)).length =
          ((mainSpans t rest).getD (f + n - 1) (0, 0)).2 := by
  induction f with
  | zero =>
    intro t rest n hn hfn
    obtain ⟨suf, h1, h2⟩ := extraction_zero n t rest hn (by simpa using hfn)
    refine ⟨[], suf, by simpa using h1, ?_, by simpa using h2⟩
    rw [mainSpans, List.getD_cons_zero]
    rfl
  | succ f2 ih =>
    intro t rest n hn hfn
    cases rest with
    | nil =>
      rw [List.length_cons, List.length_nil] at hfn
      omega
    | cons r rs =>
      have hlen3 : f2 + 1 + n ≤ rs.length + 1 + 1 := by simpa using hfn
      have hfn2 : f2 + n ≤ (r :: rs : List (List Char)).length := by
        rw [List.length_cons]
        omega
      obtain ⟨pre2, suf, h1, h2, h3⟩ := ih r rs n hn hfn2
      have hdrop : ((t :: r :: rs : List (List Char)).drop (f2 + 1)) =
          ((r :: rs : List (List Char)).drop f2) := rfl
      have hidx1 : f2 < (mainSpans r rs).length := by
        rw [mainSpans_length]
        omega
      have hidx2 : f2 + n - 1 < (mainSpans r rs).length := by
        rw [mainSpans_length]
        omega
      have hg1 := mainSpans_getD_succ t r rs f2 hidx1
      have hg2 := mainSpans_getD_succ t r rs (f2 + n - 1) hidx2
      refine ⟨t ++ ' ' :: pre2, suf, ?_, ?_, ?_⟩
      · rw [hdrop, sepJoin_cons, h1]
        simp [List.append_assoc]
      · rw [List.length_append, List.length_cons, hg1, h2]
        simp only
        omega
      · rw [hdrop, List.length_append, List.length_cons,
          show f2 + 1 + n - 1 = (f2 + n - 1) + 1 by omega, hg2]
        simp only
        omega

theorem range'_map_getD {α : Type} (n : Nat) :
    ∀ (a : Nat) (l : List α) (d : α), a + n ≤ l.length →
      (List.range' a n).map (fun i => l.getD i d) = (l.drop a).take n := by
  induction n with
  | zero => intro a l d _; simp
  | succ m ih =>
    intro a l d h
    rw [List.range'_succ, List.map_cons, ih (a + 1) l d (by omega)]
    have ha : a < l.length := by omega
    rw [List.getD_eq_getElem _ _ ha, List.drop_eq_getElem_cons ha]
    rfl

theorem pySlice_infix_of_le (s : List Char) (a2 p k b2 : Nat)
    (h1 : a2 ≤ p) (h2 : p + k ≤ b2) :
    (s.drop p).take k <:+: (s.drop a2).take (b2 - a2) := by
  rw [List.infix_iff_prefix_suffix]
  refine ⟨((s.drop a2).take (b2 - a2)).drop (p - a2), ?_, List.drop_suffix _ _⟩
  rw [List.drop_take, List.drop_drop, show a2 + (p - a2) = p by omega,
    show b2 - a2 - (p - a2) = b2 - p by omega]
  rw [show (s.drop p).take k = ((s.drop p).take (b2 - p)).take k by
    rw [List.take_take, Nat.min_eq_left (by omega)]]
  exact List.take_prefix _ _

theorem getD_drop_char (s : List Char) (p i : Nat) :
    (s.drop p).getD i ' ' = s.getD (p + i) ' ' := by
  rw [List.getD_eq_getElem?_getD, List.getElem?_drop, ← List.getD_eq_getElem?_getD]

theorem prefix_getD_char (q X : List Char) (hp : q <+: X) (i : Nat)
    (hi : i < q.length) : X.getD i ' ' = q.getD i ' ' := by
  obtain ⟨r, rfl⟩ := hp
  rw [getD_append_left' q r ' ' i hi]

theorem infix_strip_replicate (k : Nat) (X q : List Char) (hq : q ≠ [])
    (hhd : ∀ c ∈ q.head?, pyIsSpace c = false) :
    q <:+: (List.replicate k ' ' ++ X) → q <:+: X := by
  induction k with
  | zero => intro h; simpa using h
  | succ m ih =>
    intro h
    rw [List.replicate_succ, List.cons_append] at h
    rcases List.infix_cons_iff.mp h with h1 | h1
    · cases q with
      | nil => exact absurd rfl hq
      | cons qc qt =>
        obtain ⟨hqc, _⟩ := List.cons_prefix_cons.mp h1
        have hsp := hhd qc (by simp)
        rw [hqc] at hsp
        exact absurd hsp (by decide)
    · exact ih h1

theorem normalized_head_not_space (q : List Char) (h : normalize_str q = q) :
    ∀ c ∈ q.head?, pyIsSpace c = false := by
  intro c hc
  have h2 := pyStrip_head (collapseWsAux false q)
  rw [show pyStrip (collapseWsAux false q) = normalize_str q from rfl, h] at h2
  exact h2 c hc

theorem normalized_last_not_space (q : List Char) (h : normalize_str q = q) :
    ∀ c ∈ q.getLast?, pyIsSpace c = false := by
  intro c hc
  have h2 := pyStrip_last (collapseWsAux false q)
  rw [show pyStrip (collapseWsAux false q) = normalize_str q from rfl, h] at h2
  exact h2 c hc

theorem getD_last_not_space (q : List Char) (hq : q ≠ [])
    (h : ∀ c ∈ q.getLast?, pyIsSpace c = false) :
    pyIsSpace (q.getD (q.length - 1) ' ') = false := by
  have hne : q.length ≠ 0 := by
    intro h0
    exact hq (List.length_eq_zero.mp h0)
  have h1 : q.getLast? = some (q.getD (q.length - 1) ' ') := by
    rw [List.getLast?_eq_getElem?, List.getD_eq_getElem?_getD]
    cases hg : q[q.length - 1]? with
    | none =>
      rw [List.getElem?_eq_none_iff] at hg
      omega
    | some x => rfl
  exact h _ (Option.mem_def.mpr h1)

/-- C5 counterexample: the empty query is a normalized string and a
substring of any concatenation, but find_text_spans returns some [],
an EMPTY index list, contradicting the claimed non-empty block set. -/
theorem find_text_spans_empty_query :
    find_text_spans [{ text := ['a'], raw := ['a'] }] [] = some [] ∧
    normalize_str [] = [] := by
  constructor
  · decide
  · decide

/-- C5 (amended, restricted to non-empty queries): for every block list
and every non-empty normalized query that occurs as an exact contiguous
substring of the blocks' normalized texts concatenated with single
separating spaces, find_text_spans returns a non-empty contiguous
ascending list of block indices, consisting of exactly the blocks whose
character ranges overlap the matched interval, and whose concatenated
normalized text contains the query; when the query is absent from the
concatenation it returns not-found. -/
theorem find_text_spans_spec (elements : List Block) (query : List Char)
    (hqn : query ≠ []) (hqnorm : normalize_str query = query) :
    (¬ query <:+: intercalateSpace (normTexts elements) →
      find_text_spans elements query = none) ∧
    (query <:+: intercalateSpace (normTexts elements) →
      ∃ p idxs, strFind (combinedOf (normTexts elements)) query = some p ∧
        find_text_spans elements query = some idxs ∧
        idxs ≠ [] ∧
        (∃ a n, idxs = List.range' a n) ∧
        (∀ j, j ∈ idxs ↔ j < elements.length ∧
          spanOverlaps ((spansOf (normTexts elements)).getD j (0, 0)) p
            (p + query.length) = true) ∧
        query <:+: intercalateSpace (idxs.map (fun i =>
          (normTexts elements).getD i []))) := by
  have hnt : elements.map (fun el => normalize_str el.text) = normTexts elements := rfl
  have hftsN : strFind (combinedOf (normTexts elements)) query = none →
      find_text_spans elements query = none := by
    intro h
    simp only [find_text_spans, hqnorm, hnt, h]
  have hftsS : ∀ p, strFind (combinedOf (normTexts elements)) query = some p →
      find_text_spans elements query =
        some (matchedLoop (spansOf (normTexts elements)) 0 p (p + query.length)) := by
    intro p h
    simp only [find_text_spans, hqnorm, hnt, h]
  have hqlen : 0 < query.length := List.length_pos.mpr hqn
  constructor
  · intro hni
    apply hftsN
    apply strFind_none_of_not_infix
    intro hic
    apply hni
    rcases texts_decompose (normTexts elements) with hall | ⟨E, t, rest, hts, hE, ht⟩
    · have hc : combinedOf (normTexts elements) = [] := by
        rw [combinedOf, buildCombinedAux_allEmpty _ hall]
      rw [hc] at hic
      exact absurd (List.sublist_nil.mp hic.sublist) hqn
    · have hc : combinedOf (normTexts elements) = t ++ sepJoin rest := by
        rw [combinedOf, hts, buildCombinedAux_structured E hE t ht rest]
      have hi2 : intercalateSpace (normTexts elements) =
          List.replicate E.length ' ' ++ (t ++ sepJoin rest) := by
        rw [hts, intercalateSpace_structured E hE t rest]
      rw [hi2]
      rw [hc] at hic
      exact hic.trans (List.suffix_append _ _).isInfix
  · intro hin
    rcases texts_decompose (normTexts elements) with hall | ⟨E, t, rest, hts, hE, ht⟩
    · exfalso
      obtain ⟨qc, qt, rfl⟩ : ∃ qc qt, query = qc :: qt := by
        cases query with
        | nil => exact absurd rfl hqn
        | cons a b => exact ⟨a, b, rfl⟩
      have hmem : qc ∈ intercalateSpace (normTexts elements) :=
        hin.sublist.subset (List.mem_cons_self _ _)
      have hsp := intercalateSpace_allEmpty _ hall qc hmem
      have hh := normalized_head_not_space _ hqnorm qc (by simp)
      rw [hsp] at hh
      exact absurd hh (by decide)
    · have hcomb : combinedOf (normTexts elements) = t ++ sepJoin rest := by
        rw [combinedOf, hts, buildCombinedAux_structured E hE t ht rest]
      have hspans : spansOf (normTexts elements) =
          E.map (fun _ => ((0 : Nat), (0 : Nat))) ++ mainSpans t rest := by
        rw [spansOf, hts, buildCombinedAux_structured E hE t ht rest, mainSpans]
      have hinter : intercalateSpace (normTexts elements) =
          List.replicate E.length ' ' ++ (t ++ sepJoin rest) := by
        rw [hts, intercalateSpace_structured E hE t rest]
      have hqc : query <:+: combinedOf (normTexts elements) := by
        rw [hcomb]
        refine infix_strip_replicate E.length _ query hqn
          (normalized_head_not_space query hqnorm) ?_
        rw [← hinter]
        exact hin
      obtain ⟨p, hp⟩ := strFind_isSome_of_infix _ _ hqc
      obtain ⟨hpre, hplen⟩ := strFind_some_spec _ _ p hp
      have hNlen : (normTexts elements).length = elements.length := by
        rw [normTexts, List.length_map]
      have hsplen : (spansOf (normTexts elements)).length = elements.length := by
        rw [spansOf_length, hNlen]
      have hElen : (E.map (fun _ => ((0 : Nat), (0 : Nat)))).length = E.length :=
        List.length_map _ _
      have htot : elements.length = E.length + (rest.length + 1) := by
        rw [← hNlen, hts, List.length_append, List.length_cons]
      obtain ⟨hst, hen⟩ := structuredSpans_mono E t rest
      rw [← hspans] at hst hen
      have hMem : ∀ j, j ∈ matchedLoop (spansOf (normTexts elements)) 0 p
            (p + query.length) ↔
          j < elements.length ∧
            spanOverlaps ((spansOf (normTexts elements)).getD j (0, 0)) p
              (p + query.length) = true := by
        intro j
        rw [matchedLoop_mem _ 0 p (p + query.length) hst j]
        constructor
        · rintro ⟨k, hk, rfl, hov⟩
          rw [hsplen] at hk
          exact ⟨by omega, by simpa using hov⟩
        · rintro ⟨hj, hov⟩
          exact ⟨j, by rw [hsplen]; exact hj, by omega, hov⟩
      have hgetD_abs : ∀ k, (spansOf (normTexts elements)).getD (E.length + k) (0, 0) =
          (mainSpans t rest).getD k (0, 0) := by
        intro k
        have hsub : (E.length + k) - (E.map (fun _ => ((0 : Nat), (0 : Nat)))).length = k := by
          rw [hElen]
          omega
        rw [hspans, getD_append_right' _ _ _ _ (by rw [hElen]; omega), hsub]
      have hzero : ∀ j, j < E.length →
          (spansOf (normTexts elements)).getD j (0, 0) = (0, 0) := by
        intro j hj
        rw [hspans, getD_append_left' _ _ _ _ (by rw [hElen]; exact hj)]
        rw [List.getD_eq_getElem _ _ (by rw [hElen]; exact hj), List.getElem_map]
      have hcombLen : p + query.length ≤ (combinedOf (normTexts elements)).length := hplen
      have hchar_p : (combinedOf (normTexts elements)).getD p ' ' = query.getD 0 ' ' := by
        have h2 := prefix_getD_char query _ hpre 0 hqlen
        rw [getD_drop_char] at h2
        rw [show p + 0 = p from rfl] at h2
        exact h2
      have hq0 : pyIsSpace (query.getD 0 ' ') = false := by
        obtain ⟨qc, qt, hq⟩ : ∃ qc qt, query = qc :: qt := by
          cases query with
          | nil => exact absurd rfl hqn
          | cons a b => exact ⟨a, b, rfl⟩
        rw [hq, List.getD_cons_zero]
        exact normalized_head_not_space _ hqnorm qc (by rw [hq]; simp)
      have hpos1 : ∃ k, k < (mainSpans t rest).length ∧
          ((mainSpans t rest).getD k (0, 0)).1 ≤ p ∧
          p < ((mainSpans t rest).getD k (0, 0)).2 := by
        apply combined_pos
        · rw [← hcomb]
          omega
        · rw [← hcomb, hchar_p]
          intro hsp
          rw [hsp] at hq0
          exact absurd hq0 (by decide)
      obtain ⟨k1, hk1len, hk1a, hk1b⟩ := hpos1
      rw [mainSpans_length] at hk1len
      have hj1mem : E.length + k1 ∈ matchedLoop (spansOf (normTexts elements)) 0 p
          (p + query.length) := by
        rw [hMem]
        refine ⟨by omega, ?_⟩
        rw [hgetD_abs k1, spanOverlaps, Bool.and_eq_true]
        exact ⟨decide_eq_true (by omega), decide_eq_true (by omega)⟩
      have hne : matchedLoop (spansOf (normTexts elements)) 0 p (p + query.length) ≠ [] :=
        List.ne_nil_of_mem hj1mem
      have hchain := matchedLoop_chain (spansOf (normTexts elements)) 0 p
        (p + query.length) hen
      obtain ⟨a, n, hrange⟩ := chain_succ_range' _ hchain
      have hn0 : 0 < n := by
        rcases Nat.eq_zero_or_pos n with h0 | h0
        · rw [h0] at hrange
          exact absurd (by rw [hrange]; rfl) hne
        · exact h0
      have hamem : a ∈ matchedLoop (spansOf (normTexts elements)) 0 p
          (p + query.length) := by
        rw [hrange, List.mem_range'_1]
        omega
      have hlastmem : a + n - 1 ∈ matchedLoop (spansOf (normTexts elements)) 0 p
          (p + query.length) := by
        rw [hrange, List.mem_range'_1]
        omega
      have hge : ∀ j, j ∈ matchedLoop (spansOf (normTexts elements)) 0 p
          (p + query.length) → E.length ≤ j := by
        intro j hj
        by_contra hlt
        push_neg at hlt
        obtain ⟨_, hov⟩ := (hMem j).mp hj
        rw [hzero j hlt, spanOverlaps] at hov
        simp at hov
      have hstD : ∀ i j, i ≤ j → j < elements.length →
          ((spansOf (normTexts elements)).getD i (0, 0)).1 ≤
          ((spansOf (normTexts elements)).getD j (0, 0)).1 := by
        intro i j hij hj
        rcases Nat.eq_or_lt_of_le hij with heq | hlt
        · rw [heq]
        · have hi2 : i < (spansOf (normTexts elements)).length := by
            rw [hsplen]
            omega
          have hj2 : j < (spansOf (normTexts elements)).length := by
            rw [hsplen]
            exact hj
          have := List.pairwise_iff_getElem.mp hst i j hi2 hj2 hlt
          rw [List.getD_eq_getElem _ _ hi2, List.getD_eq_getElem _ _ hj2]
          exact this
      have henD : ∀ i j, i ≤ j → j < elements.length →
          ((spansOf (normTexts elements)).getD i (0, 0)).2 ≤
          ((spansOf (normTexts elements)).getD j (0, 0)).2 := by
        intro i j hij hj
        rcases Nat.eq_or_lt_of_le hij with heq | hlt
        · rw [heq]
        · have hi2 : i < (spansOf (normTexts elements)).length := by
            rw [hsplen]
            omega
          have hj2 : j < (spansOf (normTexts elements)).length := by
            rw [hsplen]
            exact hj
          have := List.pairwise_iff_getElem.mp hen i j hi2 hj2 hlt
          rw [List.getD_eq_getElem _ _ hi2, List.getD_eq_getElem _ _ hj2]
          exact this
      have hj1lt : E.length + k1 < elements.length := by omega
      have halast : a + n - 1 < elements.length := ((hMem _).mp hlastmem).1
      have haj1 : a ≤ E.length + k1 := by
        have := hj1mem
        rw [hrange, List.mem_range'_1] at this
        omega
      have hstA : ((spansOf (normTexts elements)).getD a (0, 0)).1 ≤ p := by
        have h1 := hstD a (E.length + k1) haj1 hj1lt
        rw [hgetD_abs k1] at h1
        omega
      have hchar_last : (combinedOf (normTexts elements)).getD
          (p + query.length - 1) ' ' = query.getD (query.length - 1) ' ' := by
        have h2 := prefix_getD_char query _ hpre (query.length - 1) (by omega)
        rw [getD_drop_char] at h2
        rw [show p + (query.length - 1) = p + query.length - 1 by omega] at h2
        exact h2
      have hqlast : pyIsSpace (query.getD (query.length - 1) ' ') = false :=
        getD_last_not_space query hqn (normalized_last_not_space query hqnorm)
      have hpos2 : ∃ k, k < (mainSpans t rest).length ∧
          ((mainSpans t rest).getD k (0, 0)).1 ≤ p + query.length - 1 ∧
          p + query.length - 1 < ((mainSpans t rest).getD k (0, 0)).2 := by
        apply combined_pos
        · rw [← hcomb]
          omega
        · rw [← hcomb, hchar_last]
          intro hsp
          rw [hsp] at hqlast
          exact absurd hqlast (by decide)
      obtain ⟨k2, hk2len, hk2a, hk2b⟩ := hpos2
      rw [mainSpans_length] at hk2len
      have hj2mem : E.length + k2 ∈ matchedLoop (spansOf (normTexts elements)) 0 p
          (p + query.length) := by
        rw [hMem]
        refine ⟨by omega, ?_⟩
        rw [hgetD_abs k2, spanOverlaps, Bool.and_eq_true]
        exact ⟨decide_eq_true (by omega), decide_eq_true (by omega)⟩
      have hj2le : E.length + k2 ≤ a + n - 1 := by
        have := hj2mem
        rw [hrange, List.mem_range'_1] at this
        omega
      have henLast : p + query.length ≤
          ((spansOf (normTexts elements)).getD (a + n - 1) (0, 0)).2 := by
        have h1 := henD (E.length + k2) (a + n - 1) hj2le halast
        rw [hgetD_abs k2] at h1
        omega
      have hgea : E.length ≤ a := hge a hamem
      have hbound : (a - E.length) + n ≤ (t :: rest : List (List Char)).length := by
        rw [List.length_cons]
        omega
      obtain ⟨pre, suf, hsplit, hpreLen, hIlen⟩ :=
        extraction_gen (a - E.length) t rest n hn0 hbound
      have hga : (spansOf (normTexts elements)).getD a (0, 0) =
          (mainSpans t rest).getD (a - E.length) (0, 0) := by
        have h2 := hgetD_abs (a - E.length)
        rwa [show E.length + (a - E.length) = a by omega] at h2
      have hglast : (spansOf (normTexts elements)).getD (a + n - 1) (0, 0) =
          (mainSpans t rest).getD ((a - E.length) + n - 1) (0, 0) := by
        rw [show a + n - 1 = E.length + ((a - E.length) + n - 1) by omega]
        exact hgetD_abs _
      have hpreP : pre.length ≤ p := by
        rw [hpreLen, ← hga]
        exact hstA
      have hIend : p + query.length ≤ pre.length +
          (intercalateSpace (((t :: rest : List (List Char)).drop (a - E.length)).take n)).length := by
        rw [hIlen, ← hglast]
        exact henLast
      have hcombsplit : combinedOf (normTexts elements) =
          pre ++ (intercalateSpace (((t :: rest : List (List Char)).drop
            (a - E.length)).take n) ++ suf) := by
        rw [hcomb, hsplit]
      have hqslice : query = ((combinedOf (normTexts elements)).drop p).take query.length :=
        List.prefix_iff_eq_take.mp hpre
      have hIslice : ((combinedOf (normTexts elements)).drop pre.length).take
          ((pre.length + (intercalateSpace (((t :: rest : List (List Char)).drop
            (a - E.length)).take n)).length) - pre.length) =
          intercalateSpace (((t :: rest : List (List Char)).drop (a - E.length)).take n) := by
        rw [show (pre.length + (intercalateSpace (((t :: rest : List (List Char)).drop
          (a - E.length)).take n)).length) - pre.length =
          (intercalateSpace (((t :: rest : List (List Char)).drop (a - E.length)).take n)).length
          by omega]
        rw [hcombsplit, List.drop_left]
        exact List.take_left _ _
      have hinfix2 : query <:+:
          intercalateSpace (((t :: rest : List (List Char)).drop (a - E.length)).take n) := by
        have h2 := pySlice_infix_of_le (combinedOf (normTexts elements)) pre.length p
          query.length (pre.length + (intercalateSpace (((t :: rest : List (List Char)).drop
            (a - E.length)).take n)).length) hpreP hIend
        rw [← hqslice] at h2
        rw [hIslice] at h2
        exact h2
      have hmap : (matchedLoop (spansOf (normTexts elements)) 0 p (p + query.length)).map
          (fun i => (normTexts elements).getD i []) =
          ((t :: rest : List (List Char)).drop (a - E.length)).take n := by
        rw [hrange, range'_map_getD n a (normTexts elements) [] (by rw [hNlen]; omega)]
        rw [hts, show a = E.length + (a - E.length) by omega, ← List.drop_drop,
          List.drop_left]
        rw [show E.length + (a - E.length) - E.length = a - E.length by omega]
      refine ⟨p, matchedLoop (spansOf (normTexts elements)) 0 p (p + query.length),
        hp, hftsS p hp, hne, ⟨a, n, hrange⟩, hMem, ?_⟩
      rw [hmap]
      exact hinfix2


/-- exBlocksC5 is a two-block document used to witness the span-locator
specification on a query that spans a block boundary. -/
def exBlocksC5 : List Block :=
  [{ text := ['a', 'b', ' ', 'x'], raw := [] }, { text := ['c', 'd'], raw := [] }]

/-- exQueryC5 is a normalized query overlapping both blocks of exBlocksC5. -/
def exQueryC5 : List Char := ['x', ' ', 'c', 'd']

/-- C5 witness: on the two-block document, the query that spans the block
boundary is found in the combined string, and find_text_spans returns the
nonempty contiguous index range of exactly the overlapping blocks, whose
space-joined texts contain the query. -/
theorem find_text_spans_spec_witness :
    ∃ p idxs, strFind (combinedOf (normTexts exBlocksC5)) exQueryC5 = some p ∧
      find_text_spans exBlocksC5 exQueryC5 = some idxs ∧
      idxs ≠ [] ∧
      (∃ a n, idxs = List.range' a n) ∧
      (∀ j, j ∈ idxs ↔ j < exBlocksC5.length ∧
        spanOverlaps ((spansOf (normTexts exBlocksC5)).getD j (0, 0)) p
          (p + exQueryC5.length) = true) ∧
      exQueryC5 <:+: intercalateSpace (idxs.map (fun i =>
        (normTexts exBlocksC5).getD i [])) :=
  (find_text_spans_spec exBlocksC5 exQueryC5 (by decide) (by decide)).2 (by decide)

/-- fwdLoop models the forward scan of min_window_subsequence (utils.py:74-81):
starting from the head of s, greedily consume characters of s until all of t
has been matched in order; return the number of characters of s consumed
(one past the index of the final match), or none if s is exhausted first. -/
def fwdLoop : List Char → List Char → Option Nat
  | _, [] => some 0
  | [], _ :: _ => none
  | a :: s', c :: t' =>
    if a = c then (fwdLoop s' t').map (· + 1)
    else (fwdLoop s' (c :: t')).map (· + 1)

/-- A subsequence headed by a character different from the head of the
ambient list is a subsequence of the ambient tail. -/
lemma cons_sublist_of_ne {c a : Char} {t' r : List Char}
    (h : List.Sublist (c :: t') (a :: r)) (hne : c ≠ a) :
    List.Sublist (c :: t') r := by
  cases h with
  | cons _ h => exact h
  | cons₂ _ h => exact absurd rfl hne

/-- Dropping the head of a subsequence preserves the subsequence relation. -/
lemma tail_sublist_of_cons {c : Char} {t' r : List Char}
    (h : List.Sublist (c :: t') r) : List.Sublist t' r :=
  ((List.Sublist.refl t').cons c).trans h

/-- The forward scan returns the least number of consumed characters whose
prefix of s contains t as a subsequence. -/
lemma fwdLoop_sound : ∀ (s t : List Char) (e : Nat), fwdLoop s t = some e →
    e ≤ s.length ∧ List.Sublist t (s.take e) ∧
      ∀ f, f < e → ¬ List.Sublist t (s.take f) := by
  intro s
  induction s with
  | nil =>
    intro t e h
    cases t with
    | nil =>
      simp only [fwdLoop, Option.some.injEq] at h
      subst h
      exact ⟨Nat.le_refl 0, by simp, fun f hf => absurd hf (by omega)⟩
    | cons c t' => simp [fwdLoop] at h
  | cons a s' ih =>
    intro t e h
    cases t with
    | nil =>
      simp only [fwdLoop, Option.some.injEq] at h
      subst h
      exact ⟨by omega, by simp, fun f hf => absurd hf (by omega)⟩
    | cons c t' =>
      by_cases hac : a = c
      · subst hac
        simp only [fwdLoop, if_pos rfl] at h
        obtain ⟨e'', he'', heq⟩ := Option.map_eq_some'.mp h
        subst heq
        obtain ⟨h1, h2, h3⟩ := ih t' e'' he''
        refine ⟨by simp; omega, ?_, ?_⟩
        · rw [List.take_succ_cons]
          exact h2.cons₂ a
        · intro f hf hsubf
          cases f with
          | zero => simp at hsubf
          | succ g =>
            rw [List.take_succ_cons] at hsubf
            have hg : List.Sublist t' (s'.take g) := by
              cases hsubf with
              | cons _ hh => exact tail_sublist_of_cons hh
              | cons₂ _ hh => exact hh
            exact h3 g (by omega) hg
      · simp only [fwdLoop, if_neg hac] at h
        obtain ⟨e'', he'', heq⟩ := Option.map_eq_some'.mp h
        subst heq
        obtain ⟨h1, h2, h3⟩ := ih (c :: t') e'' he''
        refine ⟨by simp; omega, ?_, ?_⟩
        · rw [List.take_succ_cons]
          exact h2.cons a
        · intro f hf hsubf
          cases f with
          | zero => simp at hsubf
          | succ g =>
            rw [List.take_succ_cons] at hsubf
            exact h3 g (by omega)
              (cons_sublist_of_ne hsubf (fun hca => hac hca.symm))

/-- The forward scan succeeds whenever t is a subsequence of s. -/
lemma fwdLoop_complete : ∀ (s t : List Char), List.Sublist t s →
    ∃ e, fwdLoop s t = some e := by
  intro s
  induction s with
  | nil =>
    intro t h
    rw [List.sublist_nil] at h
    subst h
    exact ⟨0, rfl⟩
  | cons a s' ih =>
    intro t h
    cases t with
    | nil => exact ⟨0, rfl⟩
    | cons c t' =>
      by_cases hac : a = c
      · subst hac
        have ht' : List.Sublist t' s' := by
          cases h with
          | cons _ hh => exact tail_sublist_of_cons hh
          | cons₂ _ hh => exact hh
        obtain ⟨e, he⟩ := ih t' ht'
        exact ⟨e + 1, by simp [fwdLoop, he]⟩
      · obtain ⟨e, he⟩ := ih (c :: t')
          (cons_sublist_of_ne h (fun hca => hac hca.symm))
        exact ⟨e + 1, by simp [fwdLoop, hac, he]⟩

/-- If t occurs inside the first f characters of s, the forward scan succeeds
within at most f characters. -/
lemma fwdLoop_min_le (s t : List Char) (f : Nat)
    (h : List.Sublist t (s.take f)) :
    ∃ e, fwdLoop s t = some e ∧ e ≤ f ∧ List.Sublist t (s.take e) := by
  obtain ⟨e, he⟩ := fwdLoop_complete s t (h.trans (List.take_sublist f s))
  obtain ⟨h1, h2, h3⟩ := fwdLoop_sound s t e he
  refine ⟨e, he, ?_, h2⟩
  by_contra hlt
  push_neg at hlt
  exact h3 f hlt h

/-- The head of a positive-length take is the head of the list. -/
lemma head?_take_pos (l : List Char) (n : Nat) (hn : 0 < n) :
    (l.take n).head? = l.head? := by
  cases n with
  | zero => omega
  | succ m => cases l <;> simp

/-- The head of a drop is the element at the dropped index. -/
lemma head?_drop_eq (l : List Char) (n : Nat) : (l.drop n).head? = l[n]? := by
  induction l generalizing n with
  | nil => simp
  | cons a l' ih =>
    cases n with
    | zero => simp
    | succ m =>
      rw [List.drop_succ_cons, List.getElem?_cons_succ]
      exact ih m

/-- Taking c characters of a reversed list is the reversal of its last
c characters. -/
lemma reverse_take_eq (w : List Char) (c : Nat) (hc : c ≤ w.length) :
    w.reverse.take c = (w.drop (w.length - c)).reverse := by
  have h1 : w.reverse =
      (w.drop (w.length - c)).reverse ++ (w.take (w.length - c)).reverse := by
    rw [← List.reverse_append, List.take_append_drop]
  have h2 : ((w.drop (w.length - c)).reverse).length = c := by
    simp only [List.length_reverse, List.length_drop]
    omega
  rw [h1, List.take_left' h2]

/-- The backward scan of min_window_subsequence (utils.py:83-91), modeled as
a forward scan of the reversed window, consumes the least number of trailing
characters of the window w that still contain t as a subsequence; the
resulting minimal suffix starts with the head of t. -/
lemma revScan_sound (w t : List Char) (ht : t ≠ []) (c : Nat)
    (h : fwdLoop w.reverse t.reverse = some c) :
    1 ≤ c ∧ c ≤ w.length ∧ List.Sublist t (w.drop (w.length - c)) ∧
      (∀ d, w.length - c < d → ¬ List.Sublist t (w.drop d)) ∧
      (w.drop (w.length - c)).head? = t.head? := by
  obtain ⟨h1, h2, h3⟩ := fwdLoop_sound _ _ _ h
  rw [List.length_reverse] at h1
  have hrev : List.Sublist t (w.drop (w.length - c)) := by
    rw [reverse_take_eq w c h1] at h2
    have h4 := h2.reverse
    rw [List.reverse_reverse, List.reverse_reverse] at h4
    exact h4
  have hc1 : 1 ≤ c := by
    rcases Nat.eq_zero_or_pos c with h0 | h0
    · subst h0
      rw [List.take_zero, List.sublist_nil] at h2
      exact absurd (by simpa using h2) ht
    · exact h0
  have hmax : ∀ d, w.length - c < d → ¬ List.Sublist t (w.drop d) := by
    intro d hd hsub
    by_cases hdl : d ≤ w.length
    · apply h3 (w.length - d) (by omega)
      rw [reverse_take_eq w (w.length - d) (by omega),
        show w.length - (w.length - d) = d by omega]
      exact hsub.reverse
    · push_neg at hdl
      rw [List.drop_eq_nil_of_le (by omega), List.sublist_nil] at hsub
      exact ht hsub
  refine ⟨hc1, h1, hrev, hmax, ?_⟩
  obtain ⟨c₀, t''⟩ : ∃ c₀ t'', t = c₀ :: t'' := by
    cases t with
    | nil => exact absurd rfl ht
    | cons x xs => exact ⟨x, xs, rfl⟩
  obtain ⟨t'', hteq⟩ := t''
  subst hteq
  cases hwd : w.drop (w.length - c) with
  | nil =>
    rw [hwd, List.sublist_nil] at hrev
    exact absurd hrev (by simp)
  | cons a rest =>
    by_cases ha : c₀ = a
    · subst ha
      simp
    · exfalso
      rw [hwd] at hrev
      have htl : List.Sublist (c₀ :: t'') (w.drop (w.length - c + 1)) := by
        rw [← List.tail_drop, hwd]
        exact cons_sublist_of_ne hrev ha
      exact hmax (w.length - c + 1) (by omega) htl

/-- A window of s starting at p, viewed from an earlier position i, is a
subsequence-preserving extension: anything inside the later window occurs
in the longer window starting at i. -/
lemma window_extend (s t : List Char) (i p X : Nat) (hip : i ≤ p)
    (hpm : p ≤ s.length) (h : List.Sublist t ((s.drop p).take X)) :
    List.Sublist t ((s.drop i).take ((p - i) + X)) := by
  have hsplit : s.drop i = (s.drop i).take (p - i) ++ s.drop p := by
    have hdd : (s.drop i).drop (p - i) = s.drop p := by
      rw [List.drop_drop]
      congr 1
      omega
    rw [← hdd, List.take_append_drop]
  have hlen : ((s.drop i).take (p - i)).length = p - i := by
    simp only [List.length_take, List.length_drop]
    omega
  rw [hsplit, show (p - i) + X = ((s.drop i).take (p - i)).length + X by rw [hlen],
    List.take_append]
  exact h.trans (List.sublist_append_right _ _)

/-- HWin s t b L states that the window of s of length L starting at b fits
inside s, contains t as a subsequence, and begins with the head of t. -/
def HWin (s t : List Char) (b L : Nat) : Prop :=
  b + L ≤ s.length ∧ List.Sublist t ((s.drop b).take L) ∧
    (s.drop b).head? = t.head?

/-- A head-of-t window is nonempty. -/
lemma HWin.pos {s t : List Char} {b L : Nat} (ht : t ≠ [])
    (h : HWin s t b L) : 1 ≤ L := by
  rcases Nat.eq_zero_or_pos L with h0 | h0
  · exfalso
    obtain ⟨-, h2, -⟩ := h
    rw [h0, List.take_zero, List.sublist_nil] at h2
    exact ht h2
  · exact h0

/-- Any window containing t can be trimmed on the left to a window that
starts with the head of t. -/
lemma hwin_trim (s t : List Char) (ht : t ≠ []) :
    ∀ (L b : Nat), b + L ≤ s.length → List.Sublist t ((s.drop b).take L) →
      ∃ d, d < L ∧ HWin s t (b + d) (L - d) := by
  intro L
  induction L with
  | zero =>
    intro b hbL h
    rw [List.take_zero, List.sublist_nil] at h
    exact absurd h ht
  | succ L ihL =>
    intro b hbL h
    have hbm : b < s.length := by omega
    obtain ⟨a, u, hdu⟩ : ∃ a u, s.drop b = a :: u := by
      cases hd : s.drop b with
      | nil =>
        have := List.drop_eq_nil_iff.mp hd
        omega
      | cons x xs => exact ⟨x, xs, rfl⟩
    obtain ⟨c, t', hteq⟩ : ∃ c t', t = c :: t' := by
      cases t with
      | nil => exact absurd rfl ht
      | cons x xs => exact ⟨x, xs, rfl⟩
    by_cases hh : a = c
    · refine ⟨0, by omega, by omega, by simpa using h, ?_⟩
      rw [Nat.add_zero, hdu, hteq, hh]
      simp
    · have hu : u = s.drop (b + 1) := by
        have h5 := List.tail_drop s b
        rw [hdu] at h5
        exact h5
      have h2 : List.Sublist t ((s.drop (b + 1)).take L) := by
        rw [hteq]
        apply cons_sublist_of_ne _ (fun hca => hh hca.symm)
        rw [hu] at hdu
        rw [hteq, hdu, List.take_succ_cons] at h
        exact h
      obtain ⟨d, hd, hwin⟩ := ihL (b + 1) (by omega) h2
      refine ⟨d + 1, by omega, ?_⟩
      have heq1 : b + 1 + d = b + (d + 1) := by omega
      have heq2 : L - d = L + 1 - (d + 1) := by omega
      rw [heq1, heq2] at hwin
      exact hwin

/-- mwsLoop models the outer while loop of min_window_subsequence
(utils.py:70-96). The running best window is tracked as
some (start_idx, min_len) — Python's start_idx and min_len — or none while
start_idx is still -1. On a successful forward scan of e characters from i
and backward scan consuming c trailing characters of that window, Python
records the candidate (b + 1, c - 1) with b = i + (e - c) if c - 1 is
strictly below the running minimum, and resumes the scan at b + 1. The
backward scan always succeeds (t occurs in the forward window); the
unreachable none branch mirrors Python's non-breaking backward loop. Fuel
bounds the number of iterations; s.length + 1 is always sufficient.
mwsUpdate is the running-minimum update: a candidate replaces the best
window only on a strict length decrease (utils.py:92-94). -/
def mwsUpdate (best : Option (Nat × Nat)) (cand : Nat × Nat) : Option (Nat × Nat) :=
  match best with
  | none => some cand
  | some (si, ml) => if cand.2 < ml then some cand else some (si, ml)

def mwsLoop (s t : List Char) : Nat → Nat → Option (Nat × Nat) → Option (Nat × Nat)
  | 0, _, best => best
  | fuel + 1, i, best =>
    match s[i]? with
    | none => best
    | some a =>
      if t.head? = some a then
        match fwdLoop (s.drop i) t with
        | none => mwsLoop s t fuel (i + 1) best
        | some e =>
          match fwdLoop ((s.drop i).take e).reverse t.reverse with
          | none => best
          | some c =>
            mwsLoop s t fuel (i + (e - c) + 1)
              (mwsUpdate best (i + (e - c) + 1, c - 1))
      else mwsLoop s t fuel (i + 1) best

/-- min_window_subsequence (utils.py:65-98) returns the slice
s[start_idx - 1 : start_idx + min_len] when a window was recorded and the
empty string otherwise. -/
def min_window_subsequence (s t : List Char) : List Char :=
  match mwsLoop s t (s.length + 1) 0 none with
  | none => []
  | some (si, ml) => (s.drop (si - 1)).take (ml + 1)

/-- mwsInv is the outer-loop invariant: with no recorded window, no
head-aligned window starts before the scan position i; with a recorded
window (si, ml), that window is head-aligned, starts before i, and every
head-aligned window starting before i is no shorter than it, with ties
starting no earlier. -/
def mwsInv (s t : List Char) (i : Nat) : Option (Nat × Nat) → Prop
  | none => ∀ p L, p < i → ¬ HWin s t p L
  | some (si, ml) =>
      HWin s t (si - 1) (ml + 1) ∧ si - 1 < i ∧ 1 ≤ si ∧
        ∀ p L, p < i → HWin s t p L → ml + 1 ≤ L ∧ (L = ml + 1 → si - 1 ≤ p)

/-- mwsPost describes the loop result: either no head-aligned window of s
contains t, or the recorded window is head-aligned, of minimal length among
head-aligned windows, and earliest-starting among those of minimal length. -/
def mwsPost (s t : List Char) : Option (Nat × Nat) → Prop
  | none => ∀ p L, ¬ HWin s t p L
  | some (si, ml) =>
      HWin s t (si - 1) (ml + 1) ∧ 1 ≤ si ∧
        ∀ p L, HWin s t p L → ml + 1 ≤ L ∧ (L = ml + 1 → si - 1 ≤ p)

/-- The invariant at a scan position past the end of s yields the
postcondition. -/
lemma mwsPost_of_inv (s t : List Char) (ht : t ≠ []) (i : Nat)
    (him : s.length ≤ i) (best : Option (Nat × Nat))
    (hinv : mwsInv s t i best) : mwsPost s t best := by
  have hlt : ∀ p L, HWin s t p L → p < i := by
    intro p L hw
    have h1 := hw.pos ht
    obtain ⟨h2, -, -⟩ := hw
    omega
  cases best with
  | none =>
    intro p L hw
    exact hinv p L (hlt p L hw) hw
  | some pair =>
    obtain ⟨si, ml⟩ := pair
    obtain ⟨h1, h2, h3, h4⟩ := hinv
    exact ⟨h1, h3, fun p L hw => h4 p L (hlt p L hw) hw⟩

/-- A scan position with no head-aligned window extends the invariant by
one step. -/
lemma mwsInv_bump (s t : List Char) (i : Nat) (best : Option (Nat × Nat))
    (hno : ∀ L, ¬ HWin s t i L) (hinv : mwsInv s t i best) :
    mwsInv s t (i + 1) best := by
  cases best with
  | none =>
    intro p L hp
    rcases Nat.lt_or_ge p i with h | h
    · exact hinv p L h
    · have hpi : p = i := by omega
      subst hpi
      exact hno L
  | some pair =>
    obtain ⟨si, ml⟩ := pair
    obtain ⟨h1, h2, h3, h4⟩ := hinv
    refine ⟨h1, by omega, h3, ?_⟩
    intro p L hp hw
    rcases Nat.lt_or_ge p i with h | h
    · exact h4 p L h hw
    · have hpi : p = i := by omega
      subst hpi
      exact absurd hw (hno L)

/-- Head-aligned windows starting between the scan position i and the
backtracked start i + (e - c) are at least as long as the backtracked
window, with equality only at the backtracked start itself. -/
lemma mws_skipped (s t : List Char) (i e c : Nat)
    (hf : fwdLoop (s.drop i) t = some e) (hcle : c ≤ e) :
    ∀ p L, i ≤ p → p ≤ i + (e - c) → HWin s t p L →
      c ≤ L ∧ (L = c → i + (e - c) ≤ p) := by
  obtain ⟨he1, he2, he3⟩ := fwdLoop_sound _ _ _ hf
  intro p L hip hpb hw
  obtain ⟨hpLm, hsubw, hhead⟩ := hw
  have hpm : p ≤ s.length := by omega
  obtain ⟨ep, hep, hepL, hepsub⟩ := fwdLoop_min_le (s.drop p) t L hsubw
  have hext := window_extend s t i p ep hip hpm hepsub
  have hmon : e ≤ (p - i) + ep := by
    by_contra hlt
    push_neg at hlt
    exact he3 _ hlt hext
  omega

/-- One successful iteration of the outer loop preserves the invariant:
the candidate window produced by the forward and backward scans is
head-aligned, dominates every head-aligned window in the skipped region,
and the best-window update keeps the earliest minimum. -/
lemma mwsInv_step (s t : List Char) (ht : t ≠ []) (i e c : Nat)
    (best : Option (Nat × Nat)) (him : i < s.length)
    (hf : fwdLoop (s.drop i) t = some e)
    (hc : fwdLoop ((s.drop i).take e).reverse t.reverse = some c)
    (hinv : mwsInv s t i best) :
    mwsInv s t (i + (e - c) + 1)
      (mwsUpdate best (i + (e - c) + 1, c - 1)) := by
  obtain ⟨he1, he2, he3⟩ := fwdLoop_sound _ _ _ hf
  rw [List.length_drop] at he1
  have hwlen : ((s.drop i).take e).length = e := by
    simp only [List.length_take, List.length_drop]
    omega
  obtain ⟨hc1, hc2, hc3, hc4, hc5⟩ := revScan_sound _ t ht c hc
  rw [hwlen] at hc2 hc3 hc5
  have hdw : ((s.drop i).take e).drop (e - c) = (s.drop (i + (e - c))).take c := by
    rw [List.drop_take, List.drop_drop]
    congr 1
    omega
  have hcand : HWin s t (i + (e - c)) c := by
    refine ⟨by omega, ?_, ?_⟩
    · rw [← hdw]
      exact hc3
    · rw [← head?_take_pos (s.drop (i + (e - c))) c hc1, ← hdw]
      exact hc5
  have hskip := mws_skipped s t i e c hf hc2
  cases best with
  | none =>
    simp only [mwsUpdate]
    refine ⟨?_, by omega, by omega, ?_⟩
    · rw [show i + (e - c) + 1 - 1 = i + (e - c) by omega,
        show c - 1 + 1 = c by omega]
      exact hcand
    · intro p L hp hw
      rw [show c - 1 + 1 = c by omega]
      rcases Nat.lt_or_ge p i with hpi | hpi
      · exact absurd hw (hinv p L hpi)
      · have := hskip p L hpi (by omega) hw
        refine ⟨this.1, fun hLc => ?_⟩
        rw [show i + (e - c) + 1 - 1 = i + (e - c) by omega]
        exact this.2 hLc
  | some pair =>
    obtain ⟨si, ml⟩ := pair
    obtain ⟨h1, h2, h3, h4⟩ := hinv
    by_cases hml : c - 1 < ml
    · simp only [mwsUpdate, if_pos hml]
      refine ⟨?_, by omega, by omega, ?_⟩
      · rw [show i + (e - c) + 1 - 1 = i + (e - c) by omega,
          show c - 1 + 1 = c by omega]
        exact hcand
      · intro p L hp hw
        rw [show c - 1 + 1 = c by omega]
        rcases Nat.lt_or_ge p i with hpi | hpi
        · have := h4 p L hpi hw
          constructor
          · omega
          · intro hLc
            omega
        · have := hskip p L hpi (by omega) hw
          refine ⟨this.1, fun hLc => ?_⟩
          rw [show i + (e - c) + 1 - 1 = i + (e - c) by omega]
          exact this.2 hLc
    · simp only [mwsUpdate, if_neg hml]
      refine ⟨h1, by omega, h3, ?_⟩
      intro p L hp hw
      rcases Nat.lt_or_ge p i with hpi | hpi
      · exact h4 p L hpi hw
      · have := hskip p L hpi (by omega) hw
        constructor
        · omega
        · intro hLc
          omega

/-- With sufficient fuel, the outer loop started in a state satisfying the
invariant ends in the postcondition. -/
lemma mwsLoop_post (s t : List Char) (ht : t ≠ []) :
    ∀ (fuel i : Nat) (best : Option (Nat × Nat)), s.length ≤ i + fuel →
      mwsInv s t i best → mwsPost s t (mwsLoop s t fuel i best) := by
  intro fuel
  induction fuel with
  | zero =>
    intro i best hfi hinv
    exact mwsPost_of_inv s t ht i (by omega) best hinv
  | succ fuel ih =>
    intro i best hfi hinv
    cases hsi : s[i]? with
    | none =>
      have him : s.length ≤ i := by
        rcases Nat.lt_or_ge i s.length with h | h
        · rw [List.getElem?_eq_getElem h] at hsi
          exact absurd hsi (by simp)
        · exact h
      simp only [mwsLoop, hsi]
      exact mwsPost_of_inv s t ht i him best hinv
    | some a =>
      have him : i < s.length := by
        rcases Nat.lt_or_ge i s.length with h | h
        · exact h
        · rw [List.getElem?_eq_none h] at hsi
          exact absurd hsi (by simp)
      simp only [mwsLoop, hsi]
      by_cases hha : t.head? = some a
      · rw [if_pos hha]
        cases hfw : fwdLoop (s.drop i) t with
        | none =>
          apply ih (i + 1) best (by omega)
          apply mwsInv_bump s t i best ?_ hinv
          intro L hw
          obtain ⟨hw1, hw2, hw3⟩ := hw
          obtain ⟨e, he⟩ := fwdLoop_complete (s.drop i) t
            (hw2.trans (List.take_sublist _ _))
          rw [hfw] at he
          exact absurd he (by simp)
        | some e =>
          obtain ⟨he1, he2, he3⟩ := fwdLoop_sound _ _ _ hfw
          obtain ⟨c, hcv⟩ :=
            fwdLoop_complete ((s.drop i).take e).reverse t.reverse he2.reverse
          simp only [hcv]
          exact ih (i + (e - c) + 1) _ (by omega)
            (mwsInv_step s t ht i e c best him hfw hcv hinv)
      · rw [if_neg hha]
        apply ih (i + 1) best (by omega)
        apply mwsInv_bump s t i best ?_ hinv
        intro L hw
        obtain ⟨-, -, hw3⟩ := hw
        rw [head?_drop_eq, hsi] at hw3
        exact hha hw3.symm

/-- C1: for every string s and nonempty target t such that t occurs as an
ordered subsequence of s (equivalently, of some contiguous substring of s),
min_window_subsequence returns a contiguous window of s containing t as a
subsequence, of minimal length among all such windows, and starting at the
earliest position among the windows of minimal length. -/
theorem min_window_subsequence_spec (s t : List Char) (ht : t ≠ [])
    (hsub : List.Sublist t s) :
    ∃ b L, min_window_subsequence s t = (s.drop b).take L ∧
      b + L ≤ s.length ∧ List.Sublist t ((s.drop b).take L) ∧
      (∀ b' L', b' + L' ≤ s.length → List.Sublist t ((s.drop b').take L') →
        L ≤ L') ∧
      (∀ b', b' + L ≤ s.length → List.Sublist t ((s.drop b').take L) →
        b ≤ b') := by
  have hinv0 : mwsInv s t 0 none := fun p L hp => absurd hp (by omega)
  have hpost := mwsLoop_post s t ht (s.length + 1) 0 none (by omega) hinv0
  have hex : ∃ d, HWin s t d (s.length - d) := by
    have h0 : List.Sublist t ((s.drop 0).take s.length) := by
      simpa using hsub
    obtain ⟨d, hd, hw⟩ := hwin_trim s t ht s.length 0 (by omega) h0
    exact ⟨d, by simpa using hw⟩
  cases hres : mwsLoop s t (s.length + 1) 0 none with
  | none =>
    rw [hres] at hpost
    obtain ⟨d, hw⟩ := hex
    exact absurd hw (hpost d _)
  | some pair =>
    obtain ⟨si, ml⟩ := pair
    rw [hres] at hpost
    obtain ⟨h1, h2, h3⟩ := hpost
    refine ⟨si - 1, ml + 1, ?_, h1.1, h1.2.1, ?_, ?_⟩
    · simp only [min_window_subsequence, hres]
    · intro b' L' hb'L hsub'
      obtain ⟨d, hd, hw⟩ := hwin_trim s t ht L' b' hb'L hsub'
      have h5 := (h3 _ _ hw).1
      omega
    · intro b' hb'L hsub'
      obtain ⟨d, hd, hw⟩ := hwin_trim s t ht (ml + 1) b' hb'L hsub'
      have h5 := h3 _ _ hw
      have hd0 : d = 0 := by
        have h6 := h5.1
        omega
      subst hd0
      have h7 := h5.2 (by omega)
      omega

/-- exSC1 is the spec's WindowAligner example raw string "xxaxbxcxx". -/
def exSC1 : List Char := ['x', 'x', 'a', 'x', 'b', 'x', 'c', 'x', 'x']

/-- exTC1 is the spec's WindowAligner example target "abc". -/
def exTC1 : List Char := ['a', 'b', 'c']

/-- C1 witness: on the spec example s = "xxaxbxcxx", t = "abc", the
specification instance holds and the returned window is "axbxc"
(length 5), not any longer candidate. -/
theorem min_window_subsequence_spec_witness :
    (∃ b L, min_window_subsequence exSC1 exTC1 = (exSC1.drop b).take L ∧
      b + L ≤ exSC1.length ∧ List.Sublist exTC1 ((exSC1.drop b).take L) ∧
      (∀ b' L', b' + L' ≤ exSC1.length →
        List.Sublist exTC1 ((exSC1.drop b').take L') → L ≤ L') ∧
      (∀ b', b' + L ≤ exSC1.length →
        List.Sublist exTC1 ((exSC1.drop b').take L) → b ≤ b')) ∧
    min_window_subsequence exSC1 exTC1 = ['a', 'x', 'b', 'x', 'c'] :=
  ⟨min_window_subsequence_spec exSC1 exTC1 (by decide) (by decide), by decide⟩

/-! Orchestrator model (re_kindle.find_clip_in_spine, find_matches and the
summary behavior of process_book), claims C4 and C9. -/

/-- Doc models one spine item: fullText is the text content of the whole
document (soup.get_text()) and pars its paragraph blocks (soup.find_all("p"),
each with text content and raw markup). -/
structure Doc where
  fullText : List Char
  pars : List Block
deriving DecidableEq, Inhabited

/-- Match models the re_kindle.Match record. -/
structure Match where
  clip : Clip
  spine_ix : Nat
  matched_tag_indices : List Nat
  all_tag_str : List Char
  pre_highlight : List Char
deriving DecidableEq, Inhabited

/-- containsNospace clip doc decides the containment test of
find_clip_in_spine (re_kindle.py:49): the space-stripped clip content
occurs inside the space-stripped normalized document text. -/
def containsNospace (clip : Clip) (doc : Doc) : Bool :=
  decide (nospace clip.content <:+: nospace (normalize_str doc.fullText))

/-- docAttempt models the body of find_clip_in_spine once a document has
passed the space-stripped containment test (re_kindle.py:50-68): locate the
block spans of the clip content; on failure the whole search yields None;
on success build the Match from the normalized joined raw markup and the
minimal window for the space-stripped content. -/
def docAttempt (clip : Clip) (doc : Doc) (ix : Nat) : Option Match :=
  match find_text_spans doc.pars clip.content with
  | none => none
  | some idxs =>
    let a := normalize_whitespace
      ((idxs.map (fun i => (doc.pars.getD i ⟨[], []⟩).raw)).flatten)
    some { clip := clip, spine_ix := ix, matched_tag_indices := idxs,
           all_tag_str := a,
           pre_highlight := min_window_subsequence a (nospace clip.content) }

/-- findClipAux models the document loop of find_clip_in_spine
(re_kindle.py:44-69): scan the spine in order for the first document whose
space-stripped normalized text contains the space-stripped clip content,
and return docAttempt there; ix tracks the absolute spine index. -/
def findClipAux (clip : Clip) : List Doc → Nat → Option Match
  | [], _ => none
  | doc :: rest, ix =>
    if containsNospace clip doc then docAttempt clip doc ix
    else findClipAux clip rest (ix + 1)

/-- find_clip_in_spine models re_kindle.find_clip_in_spine with the default
start_from = 0. -/
def find_clip_in_spine (clip : Clip) (spine : List Doc) : Option Match :=
  findClipAux clip spine 0

/-- find_matches models re_kindle.find_matches: every clip with a non-None
search result contributes its Match, in clip order. -/
def find_matches (clippings : List Clip) (spine : List Doc) : List Match :=
  clippings.filterMap (fun clip => find_clip_in_spine clip spine)

/-- find_clip_spec is the spec-shaped description of the search: the index
of the first document passing the space-stripped containment test is found
first; the attempt at that single document (and nowhere else) decides the
outcome. -/
def find_clip_spec (clip : Clip) (spine : List Doc) : Option Match :=
  match spine.findIdx? (containsNospace clip) with
  | none => none
  | some ix => docAttempt clip (spine.getD ix ⟨[], []⟩) ix

/-- The document loop equals the first-passing-document description, with
the scan offset added to the found index. -/
lemma findClipAux_eq_spec (clip : Clip) :
    ∀ (l : List Doc) (ix : Nat),
      findClipAux clip l ix =
        match l.findIdx? (containsNospace clip) with
        | none => none
        | some j => docAttempt clip (l.getD j ⟨[], []⟩) (ix + j) := by
  intro l
  induction l with
  | nil =>
    intro ix
    simp [findClipAux]
  | cons d rest ih =>
    intro ix
    by_cases hd : containsNospace clip d = true
    · simp [findClipAux, hd, List.findIdx?_cons]
    · have hd' : containsNospace clip d = false := by
        simpa using hd
      rw [show findClipAux clip (d :: rest) ix = findClipAux clip rest (ix + 1)
        from by simp [findClipAux, hd']]
      rw [ih (ix + 1)]
      simp only [List.findIdx?_cons, hd', List.findIdx?_succ,
        Bool.false_eq_true, if_false]
      cases hfi : rest.findIdx? (containsNospace clip) with
      | none => rfl
      | some j =>
        simp only [Option.map_some', List.getD_cons_succ]
        rw [show ix + (j + 1) = ix + 1 + j by omega]

/-- C4 (amended): find_clip_in_spine stops at the FIRST document whose
space-stripped normalized text contains the space-stripped clip content
(not at the first whose normalized text contains the normalized content);
at that single document the span locator decides the outcome — its failure
aborts the whole search as a miss without examining later documents, and
its success emits a Match regardless of whether the window aligner finds a
window. find_matches counts exactly the clips with a non-None result. -/
theorem find_clip_in_spine_spec (clip : Clip) (spine : List Doc)
    (clippings : List Clip) :
    find_clip_in_spine clip spine = find_clip_spec clip spine ∧
    find_matches clippings spine =
      clippings.filterMap (fun c => find_clip_spec c spine) := by
  have h1 : ∀ c : Clip, find_clip_in_spine c spine = find_clip_spec c spine := by
    intro c
    rw [find_clip_in_spine, findClipAux_eq_spec c spine 0, find_clip_spec]
    cases spine.findIdx? (containsNospace c) with
    | none => rfl
    | some j => simp
  refine ⟨h1 clip, ?_⟩
  rw [find_matches]
  simp only [h1]

/-- exClipC4 is a highlight whose content is the two-word string a b. -/
def exClipC4 : Clip :=
  { title := [], type := ClipKind.highlight, location := [1], date := 0,
    content := ['a', ' ', 'b'], note := none }

/-- exDoc1C4 is a document whose text is ab: its normalized text does not
contain a b, but its space-stripped text contains ab. -/
def exDoc1C4 : Doc :=
  { fullText := ['a', 'b'],
    pars := [{ text := ['a', 'b'],
               raw := ['<', 'p', '>', 'a', 'b', '<', '/', 'p', '>'] }] }

/-- exDoc2C4 is a document whose text is a b: its normalized text contains
the clip content a b exactly. -/
def exDoc2C4 : Doc :=
  { fullText := ['a', ' ', 'b'],
    pars := [{ text := ['a', ' ', 'b'],
               raw := ['<', 'p', '>', 'a', ' ', 'b', '<', '/', 'p', '>'] }] }

/-- C4 counterexample: only the second document's normalized text contains
the normalized clip content, and the span locator succeeds there — so by
the claim the clip should be matched — yet find_clip_in_spine returns none:
the first document passes its space-stripped containment test and the
span-locator failure there aborts the whole scan. -/
theorem find_clip_in_spine_premature_abort :
    ¬ normalize_str exClipC4.content <:+: normalize_str exDoc1C4.fullText ∧
    normalize_str exClipC4.content <:+: normalize_str exDoc2C4.fullText ∧
    (find_text_spans exDoc2C4.pars exClipC4.content).isSome = true ∧
    find_clip_in_spine exClipC4 [exDoc1C4, exDoc2C4] = none :=
  ⟨by decide, by decide, by decide, by decide⟩

/-- process_book_summary models the tail of re_kindle.process_book
(re_kindle.py:243-261): find the matches, run the highlight-application
loop (whose create_highlighted_tags call raises TypeError on every
iteration, claim C3), and only if the loop finishes print the summary pair
(matches applied, total annotations). -/
def process_book_summary (clippings : List Clip) (spine : List Doc) :
    Except PyError (Nat × Nat) :=
  match applyHighlightsCalls (find_matches clippings spine) with
  | Except.error e => Except.error e
  | Except.ok _ =>
      Except.ok ((find_matches clippings spine).length, clippings.length)

/-- C9 (amended): when no annotation is matched the loop body never runs
and the operation completes with the summary 0 out of total; but as soon
as at least one annotation is matched, the first loop iteration raises
TypeError, the whole batch is aborted and NO summary is produced — a
single failing annotation does abort processing of the remaining ones. -/
theorem process_book_summary_spec (clippings : List Clip) (spine : List Doc) :
    (find_matches clippings spine = [] →
      process_book_summary clippings spine = Except.ok (0, clippings.length)) ∧
    (find_matches clippings spine ≠ [] →
      process_book_summary clippings spine = Except.error PyError.typeError) := by
  constructor
  · intro h
    simp [process_book_summary, h, applyHighlightsCalls]
  · intro h
    cases hm : find_matches clippings spine with
    | nil => exact absurd hm h
    | cons m rest =>
      simp [process_book_summary, hm, applyHighlightsCalls,
        show pyCallBindsOk createHighlightedTagsParams 1 processBookCallKwargs
          = false from by decide]

instance : DecidableEq (Except PyError (Nat × Nat)) := fun x y =>
  match x, y with
  | Except.error a, Except.error b =>
      if h : a = b then isTrue (by rw [h]) else isFalse (by simp [h])
  | Except.error _, Except.ok _ => isFalse (by simp)
  | Except.ok _, Except.error _ => isFalse (by simp)
  | Except.ok a, Except.ok b =>
      if h : a = b then isTrue (by rw [h]) else isFalse (by simp [h])

/-- exClipC9 is a highlight with content ab. -/
def exClipC9 : Clip :=
  { title := [], type := ClipKind.highlight, location := [1], date := 0,
    content := ['a', 'b'], note := none }

/-- exDocC9 is a document containing ab, so exClipC9 is matched in it. -/
def exDocC9 : Doc :=
  { fullText := ['a', 'b', ' ', 'c', 'd'],
    pars := [{ text := ['a', 'b', ' ', 'c', 'd'],
               raw := ['<', 'p', '>', 'a', 'b', ' ', 'c', 'd', '<', '/',
                       'p', '>'] }] }

/-- C9 witness: with the one matched annotation the batch aborts with
TypeError and no summary; with an empty batch the summary 0/0 is
produced. -/
theorem process_book_summary_spec_witness :
    find_matches [exClipC9] [exDocC9] ≠ [] ∧
    process_book_summary [exClipC9] [exDocC9] = Except.error PyError.typeError ∧
    process_book_summary [] [exDocC9] = Except.ok (0, 0) :=
  ⟨by decide, (process_book_summary_spec [exClipC9] [exDocC9]).2 (by decide),
    (process_book_summary_spec [] [exDocC9]).1 (by decide)⟩

/-- C9 counterexample: a batch with one successfully matched annotation
does not complete with a summary: the operation aborts with TypeError. -/
theorem process_book_aborts_despite_match :
    find_matches [exClipC9] [exDocC9] ≠ [] ∧
    process_book_summary [exClipC9] [exDocC9] = Except.error PyError.typeError :=
  ⟨by decide, by decide⟩
